import Mathlib

/-!
Verification development for the deterministic extraction pipeline and
multi-tier arbitration engine of the meeting-autopilot assistant
(`src/main.py`).  Text is modelled as `List Char`; Python regular
expressions are hand-compiled into a small backtracking matcher monad whose
outcome order mirrors the leftmost / greedy / lazy semantics of `re`.
Floating point scores are modelled as integers (every value the code ever
stores in them is an integer) and the two genuine ratios (deterministic
quality, confidence) as rationals.
-/

namespace MAP

abbrev Str := List Char

/-- Python `\s` (the ASCII whitespace the inputs use). -/
def isWsC (c : Char) : Bool :=
  c = ' ' || c = Char.ofNat 9 || c = Char.ofNat 10 || c = Char.ofNat 13 ||
  c = Char.ofNat 11 || c = Char.ofNat 12

/-- Python `\w` (ASCII portion): letters, digits, underscore. -/
def isWordC (c : Char) : Bool :=
  (('a' ≤ c && c ≤ 'z') || ('A' ≤ c && c ≤ 'Z') || ('0' ≤ c && c ≤ '9') || c = '_')

def isDigitC (c : Char) : Bool := '0' ≤ c && c ≤ '9'

def isAlphaC (c : Char) : Bool := ('a' ≤ c && c ≤ 'z') || ('A' ≤ c && c ≤ 'Z')

def isUpperC (c : Char) : Bool := 'A' ≤ c && c ≤ 'Z'

/-- ASCII lowercasing, the fragment of `str.lower` the vocabulary uses. -/
def lowerC (c : Char) : Char :=
  if isUpperC c then Char.ofNat (c.toNat + 32) else c

def strLower (s : Str) : Str := s.map lowerC

/-- The characters stripped by `_clean_span`'s final
`strip(" \t\n\r\"'` + backtick + `.,;:!?")`. -/
def isStripC (c : Char) : Bool :=
  isWsC c || c = Char.ofNat 34 || c = Char.ofNat 39 || c = Char.ofNat 96 ||
  c = '.' || c = ',' || c = ';' || c = ':' || c = '!' || c = '?'

/-- Python `needle in hay` on already-comparable strings. -/
def strHasSub (needle hay : Str) : Bool :=
  match hay with
  | [] => needle.isEmpty
  | _ :: t => needle.isPrefixOf hay || strHasSub needle t

/-- Case-insensitive containment: lowercase both sides and test. -/
def strHasSubCI (needle hay : Str) : Bool :=
  strHasSub (strLower needle) (strLower hay)

def strStarts (needle hay : Str) : Bool := needle.isPrefixOf hay

/-- Trailing-side `dropWhile`, structurally via `foldr`. -/
def dropTrailing (p : Char → Bool) (l : Str) : Str :=
  l.foldr (fun c acc => if acc.isEmpty && p c then [] else c :: acc) []

/-- Python `s.strip()` / `s.strip(chars)`: drop a run at both ends. -/
def stripBy (p : Char → Bool) (l : Str) : Str :=
  dropTrailing p (l.dropWhile p)

/-- `re.sub(r"\s+", " ", text)`: collapse every whitespace run to one space. -/
def collapseWs : Str → Str
  | [] => []
  | [c] => if isWsC c then [' '] else [c]
  | c1 :: c2 :: rest =>
      if isWsC c1 then
        if isWsC c2 then collapseWs (c2 :: rest)
        else ' ' :: collapseWs (c2 :: rest)
      else c1 :: collapseWs (c2 :: rest)

/-- `_clean_span`: collapse whitespace, strip whitespace, then strip the
quote/punctuation set. -/
def cleanSpan (t : Str) : Str :=
  stripBy isStripC (stripBy isWsC (collapseWs t))

/-- Python `s.split()` with no separator: whitespace-run split, no empties. -/
def wsSplit (s : Str) : List Str :=
  match s with
  | [] => []
  | c :: rest =>
      if isWsC c then wsSplit rest
      else
        match wsSplit rest with
        | [] => [[c]]
        | w :: ws =>
            match rest with
            | [] => [[c]]
            | d :: _ => if isWsC d then [c] :: (w :: ws) else (c :: w) :: ws

def joinSpace : List Str → Str
  | [] => []
  | [w] => w
  | w :: ws => w ++ ' ' :: joinSpace ws

/-! ## The matcher monad

A hand-rolled backtracking matcher: a computation produces the list of all
possible outcomes in the priority order Python `re` would try them
(alternation left to right, greedy quantifiers longest first, lazy
quantifiers shortest first).  The state carries the previously consumed
character so `\b` can be tested mid-pattern. -/

structure MSt where
  prev : Option Char
  rest : Str
deriving Repr

def M (α : Type) := MSt → List (α × MSt)

instance : Monad M where
  pure a := fun s => [(a, s)]
  bind m f := fun s => (m s).flatMap fun p => f p.1 p.2

/-- Ordered alternation, regex `|`. -/
def malt {α : Type} (a b : M α) : M α := fun s => a s ++ b s

def mfail {α : Type} : M α := fun _ => []

def mguard (b : Bool) : M Unit := fun s => if b then [((), s)] else []

/-- Consume one character satisfying `p`. -/
def takeC (p : Char → Bool) : M Char := fun s =>
  match s.rest with
  | [] => []
  | c :: r => if p c then [(c, ⟨some c, r⟩)] else []

/-- Case-insensitive literal. -/
def litCI : Str → M Unit
  | [] => pure ()
  | c :: cs => do
      let _ ← takeC (fun d => lowerC d = lowerC c)
      litCI cs

/-- Case-sensitive literal. -/
def litCS : Str → M Unit
  | [] => pure ()
  | c :: cs => do
      let _ ← takeC (fun d => d = c)
      litCS cs

def isWordOpt : Option Char → Bool
  | none => false
  | some c => isWordC c

/-- Regex `\b`: word-ness changes between the previous and next character. -/
def wordB : M Unit := fun s =>
  if isWordOpt s.prev ≠ isWordOpt s.rest.head? then [((), s)] else []

/-- Regex `$` (end of subject; the before-final-newline case is not used by
any input considered here). -/
def atEnd : M Unit := fun s => if s.rest.isEmpty then [((), s)] else []

/-- Greedy optional, regex `x?`: try consuming first. -/
def optG {α : Type} (m : M α) : M (Option α) :=
  malt (do let a ← m; pure (some a)) (pure none)

/-- Zero-width lookahead `(?=m)`. -/
def look {α : Type} (m : M α) : M Unit := fun s =>
  if (m s).isEmpty then [] else [((), s)]

/-- All splits of a list into a nonempty front part and a rest, shortest
front first; the matcher state after each split remembers the last consumed
character. -/
def seqSplits : Option Char → Str → List (Str × MSt)
  | _, [] => []
  | _, c :: rr =>
      ([c], ⟨some c, rr⟩) ::
        (seqSplits (some c) rr).map (fun p => (c :: p.1, p.2))

/-- As `seqSplits` but refusing newline inside the part (regex `.`). -/
def lazySplits : Option Char → Str → List (Str × MSt)
  | _, [] => []
  | _, c :: rr =>
      if c = Char.ofNat 10 then []
      else ([c], ⟨some c, rr⟩) ::
        (lazySplits (some c) rr).map (fun p => (c :: p.1, p.2))

/-- Regex `(.+?)`: lazy capture, shortest first. -/
def lazyPlus : M Str := fun s => lazySplits s.prev s.rest

/-- Regex `(.+)`: greedy capture, longest first. -/
def greedyPlus : M Str := fun s => (lazySplits s.prev s.rest).reverse

/-- Greedy character-class star, longest first (the `[]*` idiom). -/
def classStar (p : Char → Bool) : M Str := fun s =>
  ((⟨[], s⟩ : Str × MSt) ::
      (seqSplits s.prev (s.rest.takeWhile p)).map
        (fun q => (q.1, ⟨q.2.prev, q.2.rest ++ s.rest.dropWhile p⟩))).reverse

/-- Greedy character-class plus, longest first. -/
def classPlus (p : Char → Bool) : M Str := fun s =>
  ((seqSplits s.prev (s.rest.takeWhile p)).map
      (fun q => (q.1, ⟨q.2.prev, q.2.rest ++ s.rest.dropWhile p⟩))).reverse

/-- Regex `\s+`, greedy with backtracking (longest first). -/
def wsPlus : M Unit := do let _ ← classPlus isWsC; pure ()

/-- Regex `\s*`, greedy with backtracking. -/
def wsStar : M Unit := do let _ ← classStar isWsC; pure ()

def digitVal (c : Char) : Nat := c.toNat - 48

/-- Regex `(\d{1,2})`: greedy, two digits then one. -/
def digits12 : M Nat :=
  malt
    (do let a ← takeC isDigitC; let b ← takeC isDigitC
        pure (10 * digitVal a + digitVal b))
    (do let a ← takeC isDigitC; pure (digitVal a))

/-- Regex `(\d{2})`. -/
def digits2 : M Nat := do
  let a ← takeC isDigitC; let b ← takeC isDigitC
  pure (10 * digitVal a + digitVal b)

/-- Regex `(\d+)`, greedy. -/
def digitsPlus : M Nat := do
  let ds ← classPlus isDigitC
  pure (ds.foldl (fun acc c => 10 * acc + digitVal c) 0)

/-- First-outcome search: try the pattern at every position, leftmost match
wins, per-position priority order as produced by the pattern. -/
def searchAux {α : Type} (m : M α) : Option Char → Str → Option α
  | p, [] =>
      match (m ⟨p, []⟩).head? with
      | some a => some a.1
      | none => none
  | p, c :: rr =>
      match (m ⟨p, c :: rr⟩).head? with
      | some a => some a.1
      | none => searchAux m (some c) rr

def searchM {α : Type} (m : M α) (s : Str) : Option α := searchAux m none s

/-- Match anchored at the start (`^pattern`): first outcome only. -/
def matchStart {α : Type} (m : M α) (s : Str) : Option (α × MSt) :=
  (m ⟨none, s⟩).head?

/-- `re.sub("^pat", "", s)`: drop the leading match if the anchored pattern
succeeds, otherwise return the string unchanged. -/
def subLeading (m : M Unit) (s : Str) : Str :=
  match matchStart m s with
  | some (_, st) => st.rest
  | none => s

/-- `re.sub(pat·$, "", s)` for a pattern that always extends to the end of
the string: truncate at the leftmost position where it matches. -/
def truncAtAux (m : M Unit) : Option Char → Str → Str
  | _, [] => []
  | p, c :: r =>
      if (m ⟨p, c :: r⟩).isEmpty then c :: truncAtAux m (some c) r else []

def truncAt (m : M Unit) (s : Str) : Str := truncAtAux m none s

/-- Word-bounded case-insensitive phrase: `\b…\b`. -/
def boundedLit (w : Str) : M Unit := do
  wordB; litCI w; wordB

/-- Alternation of word-bounded phrases, in list order. -/
def boundedAlt (ws : List Str) : M Unit :=
  ws.foldr (fun w acc => malt (boundedLit w) acc) mfail

def hasBounded (ws : List Str) (s : Str) : Bool :=
  (searchM (boundedAlt ws) s).isSome

/-- Case-insensitive literal alternation without boundaries, in list order. -/
def litAlt (ws : List Str) : M Unit :=
  ws.foldr (fun w acc => malt (litCI w) acc) mfail

def strs (l : List String) : List Str := l.map String.toList

/-! ## Vocabulary tables from `main.py` -/

/-- `_TOOL_KEYWORDS` (dict lookup with default `[]`). -/
def toolKeywords (name : String) : List Str :=
  if name = "get_weather" then
    strs ["weather", "temperature", "forecast", "hot", "cold", "rain", "sunny"]
  else if name = "set_alarm" then strs ["alarm", "wake", "alert"]
  else if name = "send_message" then
    strs ["message", "send", "text", "tell", "say", "write"]
  else if name = "create_reminder" then
    strs ["remind", "reminder", "remember", "note", "memo"]
  else if name = "search_contacts" then
    strs ["find", "search", "look", "contact", "directory"]
  else if name = "play_music" then
    strs ["play", "music", "song", "listen", "hear", "playlist", "beats",
          "track", "jazz", "classical", "rock", "pop"]
  else if name = "set_timer" then strs ["timer", "countdown", "count down"]
  else []

/-- `_ACTION_HINTS`. -/
def actionHints : List Str :=
  strs ["weather", "forecast", "temperature", "hot", "cold", "rain", "raining",
        "sunny", "snow", "snowing", "humid",
        "alarm", "wake me up", "wake me", "alert me",
        "timer", "countdown", "count down",
        "remind", "reminder", "remember",
        "find", "look up", "lookup", "search", "contact",
        "play", "music", "song", "listen", "playlist",
        "text", "message", "send", "tell", "notify"]

/-- `_WEATHER_CUES`. -/
def weatherCues : List Str :=
  strs ["weather", "forecast", "temperature", "hot", "cold", "rain", "raining",
        "rainy", "sunny", "snow", "snowing", "humid", "humidity", "windy"]

/-- `_PRONOUNS`. -/
def pronouns : List Str := strs ["him", "her", "them"]

/-- `_WORD_TO_NUM`, an insertion-ordered association list. -/
def wordToNum : List (Str × Nat) :=
  [("zero", 0), ("one", 1), ("two", 2), ("three", 3), ("four", 4), ("five", 5),
   ("six", 6), ("seven", 7), ("eight", 8), ("nine", 9), ("ten", 10),
   ("eleven", 11), ("twelve", 12), ("thirteen", 13), ("fourteen", 14),
   ("fifteen", 15), ("sixteen", 16), ("seventeen", 17), ("eighteen", 18),
   ("nineteen", 19), ("twenty", 20), ("thirty", 30), ("forty", 40),
   ("fifty", 50), ("sixty", 60)].map (fun p => (p.1.toList, p.2))

/-- `_contains_action`: lowercase substring test against the hint list. -/
def containsAction (text : Str) : Bool :=
  actionHints.any (fun k => strHasSub k (strLower text))

/-! ## Time and duration parsing (`_parse_ampm_time`, `_parse_alarm_args`,
`_parse_reminder_time`, `_parse_minutes`) -/

def isAaPp (c : Char) : Bool := c = 'A' || c = 'a' || c = 'P' || c = 'p'

def isMm (c : Char) : Bool := c = 'M' || c = 'm'

/-- `_TIME_AMPM_RE`: `\b(\d{1,2})(?::(\d{2}))?\s*([AaPp])\.?\s*[Mm]\.?\b`. -/
def timeAmPmM : M (Nat × Nat × Char) := do
  wordB
  let h ← digits12
  let mi ← optG (do let _ ← takeC (fun c => c = ':'); digits2)
  wsStar
  let a ← takeC isAaPp
  let _ ← optG (takeC (fun c => c = '.'))
  wsStar
  let _ ← takeC isMm
  let _ ← optG (takeC (fun c => c = '.'))
  wordB
  pure (h, mi.getD 0, if a = 'A' || a = 'a' then 'A' else 'P')

/-- The word-hour alternation of `_parse_ampm_time`: number words whose value
is at most twelve, in dictionary order, with a leading `\b`. -/
def wordHourAlt : M Nat :=
  ((wordToNum.filter (fun p => p.2 ≤ 12)).map
      (fun p => (do wordB; litCI p.1; pure p.2 : M Nat))).foldr malt mfail

/-- Word form `\b(zero|…|twelve)\s*([AaPp])\.?\s*[Mm]\.?\b` of
`_parse_ampm_time` (no boundary between word and meridiem). -/
def wordAmPmM : M (Nat × Char) := do
  let n ← wordHourAlt
  wsStar
  let a ← takeC isAaPp
  let _ ← optG (takeC (fun c => c = '.'))
  wsStar
  let _ ← takeC isMm
  let _ ← optG (takeC (fun c => c = '.'))
  wordB
  pure (n, if a = 'A' || a = 'a' then 'A' else 'P')

/-- `_parse_ampm_time`: numeric meridiem form, then word form (zero maps to
twelve), then noon, then midnight. -/
def _parse_ampm_time (text : Str) : Option (Nat × Nat × Char) :=
  match searchM timeAmPmM text with
  | some r => some r
  | none =>
      match searchM wordAmPmM text with
      | some (h, a) => some (if h = 0 then 12 else h, 0, a)
      | none =>
          if hasBounded [String.toList "noon"] text then some (12, 0, 'P')
          else if hasBounded [String.toList "midnight"] text then
            some (12, 0, 'A')
          else none

def isC01 (c : Char) : Bool := c = '0' || c = '1'

def isC03 (c : Char) : Bool := '0' ≤ c && c ≤ '3'

def isC05 (c : Char) : Bool := '0' ≤ c && c ≤ '5'

/-- Group `([01]?\d|2[0-3])` of `_TIME_24_RE`, greedy. -/
def hour24M : M Nat :=
  malt
    (malt
      (do let a ← takeC isC01; let b ← takeC isDigitC
          pure (10 * digitVal a + digitVal b))
      (do let a ← takeC isDigitC; pure (digitVal a)))
    (do let _ ← takeC (fun c => c = '2'); let b ← takeC isC03
        pure (20 + digitVal b))

/-- Group `([0-5]\d)`. -/
def minute59M : M Nat := do
  let a ← takeC isC05; let b ← takeC isDigitC
  pure (10 * digitVal a + digitVal b)

/-- `_TIME_24_RE`: `\b([01]?\d|2[0-3]):([0-5]\d)\b`. -/
def time24M : M (Nat × Nat) := do
  wordB
  let h ← hour24M
  let _ ← takeC (fun c => c = ':')
  let m ← minute59M
  wordB
  pure (h, m)

/-- `_BARE_HOUR_NUM_RE`: `\b(?:at|for)\s+(\d{1,2})(?::([0-5]\d))?\b`. -/
def bareHourNumM : M (Nat × Nat) := do
  wordB
  litAlt (strs ["at", "for"])
  wsPlus
  let h ← digits12
  let mi ← optG (do let _ ← takeC (fun c => c = ':'); minute59M)
  wordB
  pure (h, mi.getD 0)

/-- `_BARE_HOUR_WORD_RE`: `\b(?:at|for)\s+(zero|…|twelve)\b`. -/
def bareHourWordM : M Nat := do
  wordB
  litAlt (strs ["at", "for"])
  wsPlus
  let n ← wordHourAlt
  wordB
  pure n

/-- `_parse_alarm_args`: meridiem form converted to 24h, else 24h `HH:MM`,
else bare `at/for N` with `0 ≤ N ≤ 23`, else bare word hour.  Numeric
results go through `abs(int(·))` in the source; the parsed digits are
already non-negative naturals, injected into `ℤ`. -/
def _parse_alarm_args (text : Str) : Option (Int × Int) :=
  match _parse_ampm_time text with
  | some (h0, m0, ap) =>
      let h : Nat :=
        if ap = 'A' && h0 = 12 then 0
        else if ap = 'P' && h0 < 12 then h0 + 12
        else h0
      some ((h : Int), (m0 : Int))
  | none =>
      match searchM time24M text with
      | some (h, m) => some ((h : Int), (m : Int))
      | none =>
          match searchM bareHourNumM text with
          | some (h, m) =>
              if h ≤ 23 then some ((h : Int), (m : Int))
              else
                match searchM bareHourWordM text with
                | some n => some ((n : Int), 0)
                | none => none
          | none =>
              match searchM bareHourWordM text with
              | some n => some ((n : Int), 0)
              | none => none

def digitChar (d : Nat) : Char := Char.ofNat (48 + d)

def natDigitsGo : Nat → Nat → Str
  | 0, _ => []
  | fuel + 1, n =>
      if n < 10 then [digitChar n]
      else natDigitsGo fuel (n / 10) ++ [digitChar (n % 10)]

/-- Decimal digits of a natural, as Python `str(n)`. -/
def natDigits (n : Nat) : Str := natDigitsGo (n + 1) n

/-- Python `f"{m:02d}"` for the minute field. -/
def pad2 (m : Nat) : Str := if m < 10 then '0' :: natDigits m else natDigits m

/-- Python `f"{hour}:{minute:02d} {ampm}"` with `ampm ∈ {AM, PM}`. -/
def fmtTime12 (h m : Nat) (ap : Char) : Str :=
  natDigits h ++ ':' :: pad2 m ++ ' ' :: ap :: ['M']

/-- `_parse_reminder_time`: meridiem form (hour wrapped into `1..12`), else
24h converted to 12h text, rendered `H:MM AM/PM`. -/
def _parse_reminder_time (text : Str) : Option Str :=
  match _parse_ampm_time text with
  | some (h0, m0, ap) => some (fmtTime12 ((((h0 : Int) - 1) % 12 + 1).toNat) m0 ap)
  | none =>
      match searchM time24M text with
      | some (h, m) =>
          let ap := if h < 12 then 'A' else 'P'
          let h12 := if h % 12 = 0 then 12 else h % 12
          some (fmtTime12 h12 m ap)
      | none => none

/-- Alternation `(?:minutes?|mins?)`, in pattern order. -/
def minutesWordM : M Unit :=
  malt
    (do litCI (String.toList "minute"); let _ ← optG (litCI ['s']); pure ())
    (do litCI (String.toList "min"); let _ ← optG (litCI ['s']); pure ())

/-- `_parse_minutes`: the four duration patterns of the source in order;
numeric results are non-negative (`abs`). -/
def _parse_minutes (text : Str) : Option Int :=
  match searchM (do
      wordB; let n ← digitsPlus; wsStar; minutesWordM; wordB; pure n) text with
  | some n => some (n : Int)
  | none =>
  match searchM (do
      wordB; let n ← digitsPlus; wsStar; let _ ← takeC (fun c => c = '-')
      wsStar; minutesWordM; wordB; pure n) text with
  | some n => some (n : Int)
  | none =>
  match searchM (do
      wordB; let n ← digitsPlus; wsStar
      malt (litCI ['m']) (litCI (String.toList "min"))
      wordB; pure n) text with
  | some n => some (n : Int)
  | none =>
  match searchM (do
      wordB
      let n ← (wordToNum.map
        (fun p => (do litCI p.1; pure p.2 : M Nat))).foldr malt mfail
      wsPlus; minutesWordM; wordB; pure n) text with
  | some n => some (n : Int)
  | none => none

/-! ## Span extractors -/

/-- Case-insensitive literal that returns the consumed original text
(capturing group around an alternation of words). -/
def capLitCI : Str → M Str
  | [] => pure []
  | c :: cs => do
      let d ← takeC (fun d => lowerC d = lowerC c)
      let rest ← capLitCI cs
      pure (d :: rest)

def capAlt (ws : List Str) : M Str :=
  (ws.map capLitCI).foldr malt mfail

def cApos : Char := Char.ofNat 39

/-- Class `[A-Za-z'\-]` (name-like token characters). -/
def isNameC (c : Char) : Bool := isAlphaC c || c = cApos || c = '-'

/-- Class `[A-Za-z\s'\-]` (location / trailing-name characters). -/
def isLocC (c : Char) : Bool := isAlphaC c || isWsC c || c = cApos || c = '-'

/-- Lazy character-class plus (`[…]+?`), shortest first. -/
def classPlusLazy (p : Char → Bool) : M Str := fun s =>
  (seqSplits s.prev (s.rest.takeWhile p)).map
    (fun q => (q.1, ⟨q.2.prev, q.2.rest ++ s.rest.dropWhile p⟩))

/-- Tail `.*$` with `.` excluding newline: succeeds iff the remaining input
has no newline. -/
def restNoNl : M Unit := do
  let _ ← classStar (fun c => c ≠ Char.ofNat 10)
  atEnd

/-- First match among a cascade of independently searched patterns,
mirroring the `if not m:` chains of the source. -/
def searchCascade {α : Type} (ms : List (M α)) (s : Str) : Option α :=
  match ms with
  | [] => none
  | m :: rest =>
      match searchM m s with
      | some a => some a
      | none => searchCascade rest s

/-- The seven location templates of `_extract_weather_location`, searched
one after the other over the whole span. -/
def weatherPats : List (M Str) :=
  [(do
    wordB; litAlt (strs ["weather", "forecast", "temperature"])
    let _ ← optG (do wsPlus; litCI (String.toList "like"))
    wsPlus; litAlt (strs ["in", "for", "at"]); wsPlus
    let g ← greedyPlus; atEnd; pure g),
   (do
    wordB
    let _ ← optG (do
      litCI (String.toList "what")
      let _ ← optG (malt (litCI [cApos, 's']) (litCI (String.toList " is")))
      wsPlus)
    litCI (String.toList "weather"); wsPlus
    let a ← takeC isAlphaC
    let rest ← classPlus isLocC
    atEnd; pure (a :: rest)),
   (do
    wordB; litAlt (strs ["in", "for", "at"]); wsPlus
    let g ← lazyPlus
    wsPlus; litAlt (strs ["weather", "forecast", "temperature"]); wordB
    pure g),
   (do
    wordB
    let a ← takeC isAlphaC
    let rest ← classPlusLazy isLocC
    wsPlus; litAlt (strs ["weather", "forecast", "temperature"]); wordB
    pure (a :: rest)),
   (do
    wordB
    let _ ← optG (do litCI (String.toList "how"); wsPlus)
    litAlt (strs ["hot", "cold", "warm", "cool", "rainy", "sunny", "windy",
                  "humid", "snowy", "raining", "snowing"])
    let _ ← optG (do wsPlus; litCI (String.toList "is"); wsPlus
                     litCI (String.toList "it"))
    wsPlus; litAlt (strs ["in", "for", "at"]); wsPlus
    let g ← greedyPlus; atEnd; pure g),
   (do
    wordB; litCI (String.toList "is"); wsPlus; litCI (String.toList "it")
    wsPlus
    litAlt (strs ["raining", "snowing", "sunny", "cold", "hot", "windy",
                  "humid"])
    wsPlus; litAlt (strs ["in", "for", "at"]); wsPlus
    let g ← greedyPlus; atEnd; pure g),
   (do
    wordB; litAlt (strs ["in", "for", "at"]); wsPlus
    let a ← takeC isAlphaC
    let rest ← classPlus isLocC
    atEnd; pure (a :: rest))]

def inForAt : M Unit := do
  litAlt (strs ["in", "for", "at"]); wsPlus

/-- The cleanup chain of `_extract_weather_location`. -/
def weatherLocClean (g : Str) : Str :=
  let l := cleanSpan g
  let l := subLeading (do
    litAlt (strs ["could you", "can you", "would you", "please", "kindly"])
    wsPlus) l
  let l := subLeading (do
    litCI (String.toList "what")
    let _ ← optG (malt (litCI [cApos, 's']) (litCI (String.toList " is")))
    wsPlus) l
  let l := subLeading (do
    litAlt (strs ["check", "get", "show", "tell me", "give me"]); wsPlus) l
  let l := subLeading (do
    litCI (String.toList "the"); wsPlus; litCI (String.toList "weather")
    wsPlus; inForAt) l
  let l := subLeading (do litCI (String.toList "weather"); wsPlus; inForAt) l
  let l := stripBy isWsC (subLeading (malt
    (do litCI (String.toList "the"); wsPlus; litCI (String.toList "city")
        wsPlus; litCI (String.toList "of"); wsPlus)
    (do litCI (String.toList "city"); wsPlus; litCI (String.toList "of")
        wsPlus)) l)
  let l := stripBy isWsC (truncAt (do
    wordB
    litAlt (strs ["today", "tomorrow", "tonight", "now", "right now",
                  "currently", "outside", "please"])
    wordB; restNoNl) l)
  cleanSpan l

def _extract_weather_location (part : Str) : Option Str :=
  (searchCascade weatherPats part).map weatherLocClean

/-- Trigger alternation of `_extract_search_query`:
`(?:find|look up|lookup|look for|search(?: for)?)`. -/
def searchTrigM : M Unit :=
  malt (litCI (String.toList "find")) <|
  malt (litCI (String.toList "look up")) <|
  malt (litCI (String.toList "lookup")) <|
  malt (litCI (String.toList "look for"))
  (do litCI (String.toList "search")
      let _ ← optG (litCI (String.toList " for"))
      pure ())

def contactsWordM : M Unit := do
  litCI (String.toList "contact")
  let _ ← optG (litCI ['s'])
  pure ()

/-- The five query templates of `_extract_search_query`, searched in order. -/
def searchQueryPats : List (M Str) :=
  [(do
    wordB; searchTrigM; wsPlus
    let g ← lazyPlus
    look (malt
      (do wsPlus; litAlt (strs ["in", "from"]); wsPlus
          litCI (String.toList "my"); wsPlus; contactsWordM; wordB)
      atEnd)
    pure g),
   (do
    wordB; searchTrigM; wsPlus
    let g ← lazyPlus
    look (malt
      (do wsPlus; litCI (String.toList "in"); wsPlus; contactsWordM; wordB)
      atEnd)
    pure g),
   (do
    wordB; litCI (String.toList "search"); wsPlus; contactsWordM; wsPlus
    litCI (String.toList "for"); wsPlus
    let g ← greedyPlus; atEnd; pure g),
   (do
    wordB; litCI (String.toList "find"); wsPlus
    litCI (String.toList "contact"); wsPlus; litCI (String.toList "named")
    wsPlus
    let g ← greedyPlus; atEnd; pure g),
   (do
    wordB; contactsWordM; wsPlus; litAlt (strs ["for", "named"]); wsPlus
    let g ← greedyPlus; atEnd; pure g)]

/-- The cleanup chain of `_extract_search_query`. -/
def searchQueryClean (g : Str) : Str :=
  let q := cleanSpan g
  let q := subLeading (malt
    (do litCI (String.toList "for"); wsPlus) <|
    malt (do litCI (String.toList "contact"); wsPlus
             litCI (String.toList "named"); wsPlus) <|
    malt (do contactsWordM; wsPlus; litCI (String.toList "named"); wsPlus)
    (do litCI (String.toList "named"); wsPlus)) q
  let q := truncAt (do
    wsPlus; litAlt (strs ["in", "from"]); wsPlus; litCI (String.toList "my")
    wsPlus; contactsWordM; wordB; restNoNl) q
  let q := truncAt (do
    wsPlus; litCI (String.toList "in"); wsPlus; contactsWordM; wordB
    restNoNl) q
  cleanSpan q

def _extract_search_query (part : Str) : Option Str :=
  (searchCascade searchQueryPats part).map searchQueryClean

/-- `(?:saying|to say|that says|saying that)` without a trailing boundary. -/
def bodyMarkerNoB : M Unit :=
  litAlt (strs ["saying", "to say", "that says", "saying that"])

/-- `(?:saying|to say|that says|saying that)` with trailing `\b`. -/
def bodyMarkerB : M Unit := do
  bodyMarkerNoB
  wordB

/-- `(?:a\s+)?`. -/
def optASp : M Unit := do
  let _ ← optG (do litCI ['a']; wsPlus)
  pure ()

/-- `(?:(?:a|the)\s+)?`. -/
def optATheSp : M Unit := do
  let _ ← optG (do litAlt (strs ["a", "the"]); wsPlus)
  pure ()

/-- The eleven recipient templates of `_extract_message_recipient`, in the
order the source loops over them. -/
def recipientPats : List (M Str) :=
  [(do
    wordB; litCI (String.toList "send"); wsPlus; optASp
    litCI (String.toList "message"); wsPlus; litCI (String.toList "saying")
    wsPlus
    let _ ← lazyPlus
    wsPlus; litCI (String.toList "to"); wsPlus
    let g ← greedyPlus; atEnd; pure g),
   (do
    wordB; litCI (String.toList "send"); wsPlus; optASp
    litCI (String.toList "message"); wsPlus; litCI (String.toList "to")
    wsPlus
    let g ← lazyPlus
    look (malt (do wsPlus; bodyMarkerB) atEnd)
    pure g),
   (do
    wordB; litCI (String.toList "send"); wsPlus
    let g ← lazyPlus
    wsPlus; optATheSp; litCI (String.toList "message"); wordB; pure g),
   (do
    wordB; litCI (String.toList "send"); wsPlus
    let g ← lazyPlus
    wsPlus; optATheSp; litCI (String.toList "text"); wordB; pure g),
   (do
    wordB; litCI (String.toList "send"); wsPlus
    let g ← lazyPlus
    wsPlus; optATheSp; litCI (String.toList "note"); wordB; pure g),
   (do
    wordB; litCI (String.toList "send"); wsPlus; optASp
    litCI (String.toList "message"); wsPlus
    let _ ← lazyPlus
    wsPlus; litCI (String.toList "to"); wsPlus
    let g ← greedyPlus; atEnd; pure g),
   (do
    wordB; litCI (String.toList "send"); wsPlus
    let g ← capAlt (strs ["him", "her", "them"])
    wsPlus; optASp; litCI (String.toList "message"); wordB; pure g),
   (do
    wordB; litCI (String.toList "text"); wsPlus
    let g ← lazyPlus
    look (do wsPlus; bodyMarkerB)
    pure g),
   (do
    wordB; litCI (String.toList "message"); wsPlus
    let g ← lazyPlus
    look (do wsPlus; bodyMarkerB)
    pure g),
   (do
    wordB; litCI (String.toList "tell"); wsPlus
    let g ← lazyPlus
    look (do wsPlus; bodyMarkerB)
    pure g),
   (do
    wordB; litCI (String.toList "notify"); wsPlus
    let g ← lazyPlus
    look (do wsPlus; bodyMarkerB)
    pure g)]

/-- The candidate cleanup chain inside `_extract_message_recipient`'s loop. -/
def recipientClean (g : Str) : Str :=
  let c := cleanSpan g
  let c := subLeading (do litCI (String.toList "to"); wsPlus) c
  let c := truncAt (do
    wsPlus; optATheSp; litAlt (strs ["message", "text", "note"]); wordB
    restNoNl) c
  let c := truncAt (do
    wsPlus; litAlt (strs ["a", "an", "the"]); wsPlus
    litAlt (strs ["quick", "short", "brief", "little"]); wsStar; atEnd) c
  let c := truncAt (do
    wsPlus; litAlt (strs ["quick", "short", "brief", "little"]); wsStar
    atEnd) c
  truncAt (do wsPlus; litAlt (strs ["a", "an", "the"]); atEnd) c

def recipFillers : List Str :=
  strs ["a", "an", "the", "saying", "to", "message", "text"]

/-- `_extract_message_recipient`: loop over the templates, skipping
candidates that clean down to a filler word. -/
def recipientLoop : List (M Str) → Str → Option Str
  | [], _ => none
  | p :: ps, part =>
      match searchM p part with
      | none => recipientLoop ps part
      | some g =>
          let cand := recipientClean g
          if (strLower cand) ∈ recipFillers then recipientLoop ps part
          else some (cleanSpan cand)

def _extract_message_recipient (part : Str) : Option Str :=
  recipientLoop recipientPats part

/-- The three body templates of `_extract_message_body`, in order. -/
def bodyPats : List (M Str) :=
  [(do
    wordB; litCI (String.toList "send"); wsPlus; optASp
    litCI (String.toList "message"); wsPlus; litCI (String.toList "saying")
    wsPlus
    let g ← lazyPlus
    wsPlus; litCI (String.toList "to"); wsPlus
    let _ ← takeC isAlphaC
    let _ ← classStar isLocC
    atEnd; pure g),
   (do
    wordB; litCI (String.toList "message"); wsPlus
    let _ ← takeC isAlphaC
    let _ ← classStar isLocC
    wsStar
    let _ ← takeC (fun c => c = ':' || c = '-')
    wsStar
    let g ← greedyPlus; atEnd; pure g),
   (do
    wordB; bodyMarkerNoB; wsPlus
    let g ← greedyPlus; atEnd; pure g)]

def _extract_message_body (part : Str) : Option Str :=
  (searchCascade bodyPats part).map cleanSpan

/-- `_extract_message_direct`: the `send … to` form, the
`send NAME the message BODY` form, then the bare imperative fallback that
takes the first one or two name-like tokens as the recipient. -/
def nameLikeTok (t : Str) : Bool :=
  match t with
  | [] => false
  | c :: rest => isAlphaC c && rest.all isNameC

def sendToM : M Str := do
  wordB; litCI (String.toList "send"); wsPlus; optATheSp
  litAlt (strs ["message", "text", "note"]); wsPlus
  litCI (String.toList "to"); wsPlus
  let g ← lazyPlus
  look (malt (do wsPlus; bodyMarkerB) atEnd)
  pure g

def sendNamedM : M (Str × Str) := do
  wordB; litCI (String.toList "send"); wsPlus
  let g1 ← lazyPlus
  wsPlus
  let _ ← optG (do litAlt (strs ["the", "a"]); wsPlus)
  litAlt (strs ["message", "text", "note"]); wsPlus
  let g2 ← greedyPlus; atEnd
  pure (g1, g2)

def directTailM : M Str := do
  wordB; litAlt (strs ["text", "message", "tell", "notify", "send"]); wsPlus
  let g ← greedyPlus; atEnd; pure g

/-- Truthiness of a Python optional string. -/
def truthy : Option Str → Bool
  | none => false
  | some s => !s.isEmpty

/-- Python `a or b` on optional strings. -/
def pyOr (a b : Option Str) : Option Str := if truthy a then a else b

def directFallback (part : Str) : Option Str × Option Str :=
  match searchM directTailM part with
  | none => (none, none)
  | some g =>
      let tail := cleanSpan g
      if tail.isEmpty then (none, none)
      else
        match wsSplit tail with
        | [] => (none, none)
        | t0 :: ts =>
            if ts.length ≥ 1 &&
                (strs ["a", "an", "the"]).contains (strLower t0) &&
                (strs ["message", "text", "note"]).contains
                  (strLower (ts.headD []))
            then (none, none)
            else
              let two : Bool :=
                ts.length ≥ 1 && !(pronouns.contains (strLower t0)) &&
                nameLikeTok t0 && nameLikeTok (ts.headD []) &&
                isUpperC (t0.headD ' ') && isUpperC ((ts.headD []).headD ' ')
              let recToks := if two then [t0, ts.headD []] else [t0]
              let recipient := cleanSpan (joinSpace recToks)
              let body :=
                cleanSpan (joinSpace ((t0 :: ts).drop recToks.length))
              if body.isEmpty then (some recipient, none)
              else (some recipient, some body)

def directNamed (part : Str) : Option Str × Option Str :=
  match searchM sendNamedM part with
  | some (g1, g2) =>
      let r0 := cleanSpan g1
      let r1 := subLeading (do litCI (String.toList "to"); wsPlus) r0
      let r2 := truncAt (do wsPlus; litAlt (strs ["a", "an", "the"]); atEnd) r1
      let body := cleanSpan g2
      if !r2.isEmpty && !((strs ["a", "an", "the"]).contains (strLower r2)) &&
          !body.isEmpty then
        (some r2, some body)
      else directFallback part
  | none => directFallback part

def _extract_message_direct (part : Str) : Option Str × Option Str :=
  match searchM sendToM part with
  | some g =>
      let rec' := cleanSpan g
      let body := _extract_message_body part
      if !rec'.isEmpty && truthy body then (some rec', body)
      else directNamed part
  | none => directNamed part

/-- The four title templates of `_extract_reminder_title`; the first three
capture an `about`/`to` mode that controls a leading-`the` strip. -/
def remindTitle1 : M (Str × Str) := do
  wordB; litCI (String.toList "remind me"); wsPlus
  let mode ← capAlt (strs ["about", "to"])
  wsPlus
  let g ← lazyPlus
  wsPlus; litCI (String.toList "at"); wordB
  pure (mode, g)

def remindTitle2 : M Str := do
  wordB; litCI (String.toList "remind me"); wsPlus
  let g ← lazyPlus
  wsPlus; litCI (String.toList "at"); wordB
  pure g

def remindTitle3 : M (Str × Str) := do
  wordB; litCI (String.toList "remind me"); wsPlus
  litCI (String.toList "at"); wsPlus
  let _ ← lazyPlus
  wsPlus
  let mode ← capAlt (strs ["about", "to"])
  wsPlus
  let g ← greedyPlus; atEnd
  pure (mode, g)

def remindTitle4 : M Str := do
  wordB
  let _ ← optG (do litCI (String.toList "create"); wsPlus)
  litCI (String.toList "reminder"); wsPlus
  litAlt (strs ["about", "to", "for"]); wsPlus
  let g ← lazyPlus
  wsPlus; litCI (String.toList "at"); wordB
  pure g

def stripLeadingThe (t : Str) : Str :=
  subLeading (do litCI (String.toList "the"); wsPlus) t

def _extract_reminder_title (part : Str) : Option Str :=
  match searchM remindTitle1 part with
  | some (mode, g) =>
      let t := cleanSpan g
      let t := if strLower mode = String.toList "about" then
        stripLeadingThe t else t
      some (cleanSpan t)
  | none =>
  match searchM remindTitle2 part with
  | some g => some (cleanSpan (stripLeadingThe (cleanSpan g)))
  | none =>
  match searchM remindTitle3 part with
  | some (mode, g) =>
      let t := cleanSpan g
      let t := if strLower mode = String.toList "about" then
        stripLeadingThe t else t
      some (cleanSpan t)
  | none =>
  match searchM remindTitle4 part with
  | some g => some (cleanSpan g)
  | none => none

/-- The three song templates of `_extract_song` plus its cleanup chain. -/
def songPlaySomeM : M Str := do
  wordB; litCI (String.toList "play"); wsPlus; litCI (String.toList "some")
  wsPlus
  let g ← lazyPlus
  wsPlus; litCI (String.toList "music"); wordB
  pure g

def songListenM : M Str := do
  wordB; litAlt (strs ["listen to", "hear"]); wsPlus
  let g ← greedyPlus; atEnd; pure g

def songPlayM : M Str := do
  wordB; litCI (String.toList "play"); wsPlus
  let g ← greedyPlus; atEnd; pure g

def songClean (g : Str) : Str :=
  let s := cleanSpan g
  let s := subLeading (malt
    (do litCI (String.toList "the"); wsPlus; litCI (String.toList "song")
        wsPlus) <|
    malt (do litCI (String.toList "song"); wsPlus) <|
    malt (do litCI (String.toList "the"); wsPlus
             litCI (String.toList "music"); wsPlus)
    (do litCI (String.toList "music"); wsPlus)) s
  let s := subLeading (do litCI (String.toList "some"); wsPlus) s
  let s := stripBy isWsC (truncAt (do
    wordB; litCI (String.toList "please"); wordB; atEnd) s)
  cleanSpan s

def _extract_song (part : Str) : Option Str :=
  match searchM songPlaySomeM part with
  | some g => some (cleanSpan g)
  | none =>
  match searchM songListenM part with
  | some g => some (cleanSpan g)
  | none =>
  match searchM songPlayM part with
  | some g => some (songClean g)
  | none => none

/-! ## Preprocessor and compound splitter -/

/-- `re.sub` over the whole string for a pattern that consumes at least one
character: fueled scan, replacing each non-overlapping match. -/
def subAllGo (m : M Unit) (rep : Str) : Nat → Option Char → Str → Str
  | 0, _, s => s
  | _ + 1, _, [] => []
  | fuel + 1, prev, c :: rest =>
      match (m ⟨prev, c :: rest⟩).head? with
      | some (_, st) => rep ++ subAllGo m rep fuel st.prev st.rest
      | none => c :: subAllGo m rep fuel (some c) rest

def subAll (m : M Unit) (rep : Str) (s : Str) : Str :=
  subAllGo m rep (s.length + 1) none s

/-- `_TRANSFORMS` applied in order (each a case-insensitive word-bounded
phrase substitution over the whole text). -/
def applyTransforms (c : Str) : Str :=
  let c := subAll (boundedLit (String.toList "wake me up at"))
    (String.toList "set an alarm for") c
  let c := subAll (boundedLit (String.toList "wake me up"))
    (String.toList "set an alarm") c
  subAll (boundedLit (String.toList "alert me at"))
    (String.toList "set an alarm for") c

structure Msg where
  role : String
  content : Str

/-- `_preprocess`: rewrite user turns only. -/
def _preprocess (messages : List Msg) : List Msg :=
  messages.map fun m =>
    if m.role = "user" then { m with content := applyTransforms m.content }
    else m

def splitOnCommaGo (cur : Str) : Str → List Str
  | [] => [cur.reverse]
  | c :: r =>
      if c = ',' || c = ';' then cur.reverse :: splitOnCommaGo [] r
      else splitOnCommaGo (c :: cur) r

/-- `re.split(r"\s*[,;]\s*", query)` followed by strip-and-filter. -/
def commaParts (q : Str) : List Str :=
  ((splitOnCommaGo [] q).map (stripBy isWsC)).filter (fun p => !p.isEmpty)

/-- Delimiter `\b(?:and|then|also|plus|after that|next)\b|&`. -/
def conjDelimM : M Unit :=
  malt
    (do wordB
        litAlt (strs ["and", "then", "also", "plus", "after that", "next"])
        wordB)
    (do let _ ← takeC (fun c => c = '&'); pure ())

/-- `re.split` on the conjunction delimiter: pieces between matches. -/
def splitDelimGo (m : M Unit) : Nat → Str → Option Char → Str → List Str
  | 0, cur, _, s => [cur.reverse ++ s]
  | _ + 1, cur, _, [] => [cur.reverse]
  | fuel + 1, cur, prev, c :: rest =>
      match (m ⟨prev, c :: rest⟩).head? with
      | some (_, st) => cur.reverse :: splitDelimGo m fuel [] st.prev st.rest
      | none => splitDelimGo m fuel (c :: cur) (some c) rest

def conjSegments (chunk : Str) : List Str :=
  ((splitDelimGo conjDelimM (chunk.length + 1) [] none chunk).map
      (stripBy isWsC)).filter (fun p => !p.isEmpty)

/-- `_MESSAGE_MARKER_RE.search`. -/
def hasMsgMarker (s : Str) : Bool :=
  hasBounded (strs ["saying", "to say", "that says", "saying that", "say"]) s

/-- The re-merge walk of `_split_actions` over one chunk's segments. -/
def mergeLoop (parts : List Str) (current : Str) : List Str → List Str
  | [] => parts ++ [stripBy isWsC current]
  | seg :: more =>
      if hasMsgMarker current && !containsAction seg then
        mergeLoop parts (current ++ ' ' :: String.toList "and" ++ ' ' :: seg)
          more
      else if containsAction seg then
        mergeLoop (parts ++ [stripBy isWsC current]) seg more
      else
        mergeLoop parts (current ++ ' ' :: String.toList "and" ++ ' ' :: seg)
          more

/-- One chunk of `_split_actions`; `none` models the `segments[0]`
IndexError the source raises when a chunk consists only of delimiters. -/
def processChunk (chunk : Str) : Option (List Str) :=
  match conjSegments chunk with
  | [] => none
  | [s] => some [s]
  | s0 :: s1 :: rest => some (mergeLoop [] s0 (s1 :: rest))

/-- `_split_actions` (in the `Option` monad for the IndexError case). -/
def _split_actions (q : Str) : Option (List Str) :=
  ((commaParts q).mapM processChunk).map fun l =>
    let parts := l.flatten
    if parts.isEmpty then [stripBy isWsC q] else parts

/-- `_estimate_expected_actions`. -/
def _estimate_expected_actions (parts : List Str) : Nat :=
  if parts.isEmpty then 0
  else max 1 (parts.countP (fun p => containsAction p))

/-! ## Data model, validation, deduplication -/

/-- Python values occurring in tool-call argument maps. -/
inductive PyVal where
  | s (v : String)
  | n (v : Int)
  | l (v : List PyVal)

structure ToolCall where
  name : String
  args : List (String × PyVal)

/-- A tool descriptor, reduced to the fields the core reads:
`name` and `parameters.required`. -/
structure Tool where
  name : String
  required : List String

/-- `tool_map = {t["name"]: t for t in tools}`: a later duplicate name wins. -/
def toolMapFind (tools : List Tool) (name : String) : Option Tool :=
  tools.foldl (fun acc t => if t.name = name then some t else acc) none

def requiredOf (tools : List Tool) (name : String) : List String :=
  (toolMapFind tools name).elim [] (·.required)

def argGet (args : List (String × PyVal)) (k : String) : Option PyVal :=
  (args.find? (fun p => p.1 = k)).map (·.2)

/-- One required value passes if present and not the empty string nor an
empty list. -/
def valOkB : Option PyVal → Bool
  | none => false
  | some (.s str) => !(str = "")
  | some (.n _) => true
  | some (.l xs) => !xs.isEmpty

def callOkB (tools : List Tool) (c : ToolCall) : Bool :=
  match toolMapFind tools c.name with
  | none => false
  | some t => t.required.all (fun r => valOkB (argGet c.args r))

/-- `_validate` (the diagnostic string of the source is elided; only the
boolean verdict is ever consumed by the engine). -/
def _validate (calls : List ToolCall) (tools : List Tool) : Bool :=
  calls.all (callOkB tools)

def joinWith (c : Char) : List Str → Str
  | [] => []
  | [w] => w
  | w :: ws => w ++ c :: joinWith c ws

def intRepr (i : Int) : Str :=
  if i < 0 then '-' :: natDigits i.natAbs else natDigits i.toNat

/-- JSON-style string rendering used only as a canonical key (escaping is
elided: keys are compared for equality, never parsed back). -/
def serStr (s : String) : Str :=
  Char.ofNat 34 :: s.toList ++ [Char.ofNat 34]

mutual

/-- `json.dumps(value, sort_keys=True, separators=(",", ":"))` on the value
universe above. -/
def serVal : PyVal → Str
  | .s v => serStr v
  | .n v => intRepr v
  | .l vs => '[' :: joinWith ',' (serValList vs) ++ [']']

def serValList : List PyVal → List Str
  | [] => []
  | x :: xs => serVal x :: serValList xs

end

def strLeB : Str → Str → Bool
  | [], _ => true
  | _ :: _, [] => false
  | a :: as, b :: bs => if a = b then strLeB as bs else decide (a < b)

def insertArg (p : String × PyVal) : List (String × PyVal) →
    List (String × PyVal)
  | [] => [p]
  | q :: rest =>
      if strLeB p.1.toList q.1.toList then p :: q :: rest
      else q :: insertArg p rest

/-- `sort_keys=True`: arguments ordered by key. -/
def sortArgs (args : List (String × PyVal)) : List (String × PyVal) :=
  args.foldr insertArg []

def serArgs (args : List (String × PyVal)) : Str :=
  Char.ofNat 123 ::
    joinWith ',' ((sortArgs args).map (fun p => serStr p.1 ++ ':' :: serVal p.2))
    ++ [Char.ofNat 125]

/-- `_call_key`: tool name with canonical argument serialization. -/
def _call_key (c : ToolCall) : String × Str := (c.name, serArgs c.args)

def dedupeGo (seen : List (String × Str)) : List ToolCall → List ToolCall
  | [] => []
  | c :: rest =>
      if _call_key c ∈ seen then dedupeGo seen rest
      else c :: dedupeGo (_call_key c :: seen) rest

/-- `_dedupe_calls`: keep the first occurrence of each key. -/
def _dedupe_calls (calls : List ToolCall) : List ToolCall :=
  dedupeGo [] calls

/-! ## Quality estimator and candidate scorer -/

def isAlnumLower (c : Char) : Bool := ('a' ≤ c && c ≤ 'z') || isDigitC c

/-- `re.split(r"[^a-z0-9]+", s)` with empties dropped. -/
def tokSplit (s : Str) : List Str :=
  match s with
  | [] => []
  | c :: rest =>
      if !isAlnumLower c then tokSplit rest
      else
        match tokSplit rest with
        | [] => [[c]]
        | w :: ws =>
            match rest with
            | [] => [[c]]
            | d :: _ =>
                if !isAlnumLower d then [c] :: (w :: ws) else (c :: w) :: ws

/-- `re.search(rf"\b{n}\b", q)` for a decimal rendering of `n`. -/
def numTokenIn (q : Str) (n : Nat) : Bool :=
  (searchM (do wordB; litCS (natDigits n); wordB) q).isSome

/-- Per-required-argument quality credit (`_deterministic_quality` loop). -/
def qualArgCredit (q : Str) : Option PyVal → Int
  | some (.n i) => if numTokenIn q i.natAbs then 2 else 1
  | some (.s str) =>
      let s := strLower (stripBy isWsC str.toList)
      if s.isEmpty then 0
      else if strHasSub s q then 2
      else
        let toks := tokSplit s
        if !toks.isEmpty &&
            toks.countP (fun t => strHasSub t q) ≥ max 1 (toks.length - 1)
        then 1 else 0
  | _ => 0

def kwHit (q : Str) (name : String) : Bool :=
  (toolKeywords name).any (fun k => strHasSub k q)

def qualCall (tools : List Tool) (q : Str) (c : ToolCall) : Int × Int :=
  let required := requiredOf tools c.name
  ((if kwHit q c.name then 2 else 0) +
      (required.map (fun r => qualArgCredit q (argGet c.args r))).sum,
   2 + 2 * required.length)

/-- `_deterministic_quality`: credit ratio clamped to `[0, 1]`. -/
def _deterministic_quality (calls : List ToolCall) (tools : List Tool)
    (query : Str) : ℚ :=
  if calls.isEmpty then 0
  else if !(_validate calls tools) then 0
  else
    let q := strLower query
    let sc := (calls.map (fun c => (qualCall tools q c).1)).sum
    let mx := (calls.map (fun c => (qualCall tools q c).2)).sum
    if mx ≤ 0 then 0
    else max 0 (min 1 ((sc : ℚ) / (mx : ℚ)))

/-- Python `str(value)` to the extent the scorer consumes it (equality with
filler words, `"@"` containment); lists render with brackets and can never
equal a filler word. -/
def pyStr : PyVal → Str
  | .s v => v.toList
  | .n v => intRepr v
  | .l vs => serVal (.l vs)

/-- Per-argument score bonus of `_candidate_score`. -/
def scoreArgBonus (q : Str) : PyVal → Int
  | .n i => if numTokenIn q i.natAbs then 2 else 0
  | .s str =>
      let s := strLower (stripBy isWsC str.toList)
      if s.isEmpty then 0
      else if strHasSub s q then 3
      else
        let toks := tokSplit s
        if !toks.isEmpty &&
            toks.countP (fun t => strHasSub t q) ≥ max 1 (toks.length - 1)
        then 1 else 0
  | .l _ => 0

def fillerWords : List Str := strs ["a", "an", "the", "message", "text", "saying"]

def actionWords9 : List Str :=
  strs ["remind", "alarm", "timer", "weather", "play", "search", "contact",
        "message", "text"]

/-- The hallucination penalties applied to `send_message` candidates. -/
def msgPenalty (q : Str) (c : ToolCall) : Int :=
  if c.name = "send_message" then
    let recv := strLower (stripBy isWsC (pyStr ((argGet c.args "recipient").getD (.s ""))))
    let msg := strLower (stripBy isWsC (pyStr ((argGet c.args "message").getD (.s ""))))
    (if recv ∈ fillerWords then -20 else 0) +
    (if strHasSub ['@'] recv && !strHasSub ['@'] q then -10 else 0) +
    (if !msg.isEmpty &&
        actionWords9.countP (fun w => strHasSub w msg) ≥ 2 then -8 else 0)
  else 0

def callScore (q : Str) (c : ToolCall) : Int :=
  (if kwHit q c.name then 4 else 0) +
    (c.args.map (fun p => scoreArgBonus q p.2)).sum + msgPenalty q c

def distinctCountGo (seen : List String) : List String → Nat
  | [] => 0
  | n :: rest =>
      if n ∈ seen then distinctCountGo seen rest
      else distinctCountGo (n :: seen) rest + 1

def distinctCount (names : List String) : Nat := distinctCountGo [] names

/-- `_candidate_score` (every quantity the source stores in its float is an
integer, so the score is modelled in `ℤ`). -/
def _candidate_score (calls : List ToolCall) (tools : List Tool)
    (query : Str) (expected : Nat) : Int :=
  if calls.isEmpty then -10000
  else
    let q := strLower query
    (if _validate calls tools then 100 else -100) +
      15 * calls.length +
      (if expected ≠ 0 then -6 * |(calls.length : Int) - (expected : Int)|
       else 0) -
      4 * ((calls.length : Int) - (distinctCount (calls.map (·.name)) : Int)) +
      (calls.map (callScore q)).sum

/-! ## Per-span dispatcher (`_parse_part`)

The source is a chain of guarded branches with early returns; a branch whose
inner extraction fails falls through to the next.  The request-scoped
context is the `last_contact` slot. -/

abbrev Ctx := Option Str

def ctxTruthy : Ctx → Bool
  | none => false
  | some s => !s.isEmpty

def sub (w : String) (low : Str) : Bool := strHasSub w.toList low

def mkCall (name : String) (args : List (String × PyVal)) : ToolCall :=
  ⟨name, args⟩

def branchMusic (part low : Str) (avail : List String) (ctx : Ctx) :
    Option ToolCall × Ctx :=
  if avail.contains "play_music" &&
      (sub "play " low || sub "music" low || sub "song" low ||
       sub "listen " low || sub "playlist" low ||
       strStarts (String.toList "hear ") low) then
    match _extract_song part with
    | some song =>
        if !song.isEmpty then
          (some (mkCall "play_music" [("song", .s (String.mk song))]), ctx)
        else (none, ctx)
    | none => (none, ctx)
  else (none, ctx)

def branchWeather (part low : Str) (avail : List String) (ctx : Ctx) :
    Option ToolCall × Ctx :=
  if avail.contains "get_weather" &&
      weatherCues.any (fun k => strHasSub k low) then
    match _extract_weather_location part with
    | some location =>
        if !location.isEmpty then
          (some (mkCall "get_weather"
            [("location", .s (String.mk location))]), ctx)
        else branchMusic part low avail ctx
    | none => branchMusic part low avail ctx
  else branchMusic part low avail ctx

def branchTimer (part low : Str) (avail : List String) (ctx : Ctx) :
    Option ToolCall × Ctx :=
  if avail.contains "set_timer" &&
      (sub "timer" low || sub "countdown" low || sub "count down" low) then
    match _parse_minutes part with
    | some mins => (some (mkCall "set_timer" [("minutes", .n mins)]), ctx)
    | none => branchWeather part low avail ctx
  else branchWeather part low avail ctx

def branchAlarm (part low : Str) (avail : List String) (ctx : Ctx) :
    Option ToolCall × Ctx :=
  if avail.contains "set_alarm" &&
      (sub "alarm" low || sub "wake me up" low || sub "wake me" low ||
       sub "alert me" low) then
    match _parse_alarm_args part with
    | some (h, m) =>
        (some (mkCall "set_alarm" [("hour", .n h), ("minute", .n m)]), ctx)
    | none => branchTimer part low avail ctx
  else branchTimer part low avail ctx

def branchReminder (part low : Str) (avail : List String) (ctx : Ctx) :
    Option ToolCall × Ctx :=
  if avail.contains "create_reminder" &&
      (sub "remind" low || sub "reminder" low || sub "remember " low) then
    match _extract_reminder_title part, _parse_reminder_time part with
    | some title, some t =>
        if !title.isEmpty && !t.isEmpty then
          (some (mkCall "create_reminder"
            [("title", .s (String.mk title)), ("time", .s (String.mk t))]),
           ctx)
        else branchAlarm part low avail ctx
    | _, _ => branchAlarm part low avail ctx
  else branchAlarm part low avail ctx

def branchSend (part low : Str) (avail : List String) (ctx : Ctx) :
    Option ToolCall × Ctx :=
  if avail.contains "send_message" &&
      (sub "message" low || sub "text " low ||
       strStarts (String.toList "text") low || sub "send " low ||
       sub "tell " low || sub "notify " low ||
       strStarts (String.toList "notify") low) then
    let recipient0 := _extract_message_recipient part
    let body0 := _extract_message_body part
    let pair :=
      if !truthy recipient0 || !truthy body0 then
        let d := _extract_message_direct part
        (pyOr recipient0 d.1, pyOr body0 d.2)
      else (recipient0, body0)
    match pair.1 with
    | some r =>
        if !r.isEmpty then
          let r :=
            if pronouns.contains (strLower r) && ctxTruthy ctx then
              ctx.getD [] else r
          match pair.2 with
          | some b =>
              if !b.isEmpty then
                (some (mkCall "send_message"
                  [("recipient", .s (String.mk r)),
                   ("message", .s (String.mk b))]), some r)
              else branchReminder part low avail ctx
          | none => branchReminder part low avail ctx
        else branchReminder part low avail ctx
    | none => branchReminder part low avail ctx
  else branchReminder part low avail ctx

def branchSearch (part low : Str) (avail : List String) (ctx : Ctx) :
    Option ToolCall × Ctx :=
  if avail.contains "search_contacts" &&
      (sub "contact" low || sub "find " low || sub "look up" low ||
       sub "search" low) then
    match _extract_search_query part with
    | some q =>
        if !q.isEmpty then
          (some (mkCall "search_contacts" [("query", .s (String.mk q))]),
           some q)
        else branchSend part low avail ctx
    | none => branchSend part low avail ctx
  else branchSend part low avail ctx

/-- `_parse_part`: fixed dispatch order, returning the candidate (if any)
and the updated context. -/
def _parse_part (part : Str) (avail : List String) (ctx : Ctx) :
    Option ToolCall × Ctx :=
  branchSearch part (strLower part) avail ctx

/-! ## Hybrid strategy (`generate_hybrid`) -/

/-- Deterministic extraction over the spans, threading the context. -/
def detRaw (parts : List Str) (avail : List String) : List ToolCall × Ctx :=
  parts.foldl
    (fun acc part =>
      match _parse_part part avail acc.2 with
      | (some c, ctx') => (acc.1 ++ [c], ctx')
      | (none, ctx') => (acc.1, ctx'))
    ([], none)

def detCallsP (parts : List Str) (avail : List String) : List ToolCall :=
  _dedupe_calls (detRaw parts avail).1

/-- `det_valid` (`False` for an empty set, by the source's guard). -/
def detValidP (parts : List Str) (tools : List Tool) : Bool :=
  let dc := detCallsP parts (tools.map (·.name))
  if dc.isEmpty then false else _validate dc tools

/-- `det_quality` (`0.0` for an empty set, by the source's guard). -/
def detQualityP (parts : List Str) (tools : List Tool) (q : Str) : ℚ :=
  let dc := detCallsP parts (tools.map (·.name))
  if dc.isEmpty then 0 else _deterministic_quality dc tools q

/-- The escalation decision (`need_local_model`). -/
def needLocalB (q : Str) (parts : List Str) (tools : List Tool) : Bool :=
  let dc := detCallsP parts (tools.map (·.name))
  let expected := _estimate_expected_actions parts
  dc.isEmpty ||
    (decide (expected ≠ 0) && decide (dc.length < expected)) ||
    (!dc.isEmpty &&
      (!(detValidP parts tools) ||
        decide (detQualityP parts tools q < (0.45 : ℚ))))

/-- Raw payload of one local-tier invocation, as repaired and cleaned by the
boundary (`{calls, elapsed_ms, self_confidence}`). -/
structure LocalCactus where
  function_calls : List ToolCall
  total_time_ms : ℚ
  confidence : ℚ

def defaultLocal : LocalCactus := ⟨[], 0, 0⟩

/-- Candidate pool construction of the escalation path. -/
def buildCandidates (det localCalls : List ToolCall) (detV localV : Bool) :
    List (String × List ToolCall) :=
  (if detV && !det.isEmpty then [("det", det)] else []) ++
  (if localV && !localCalls.isEmpty then [("local", localCalls)] else []) ++
  (if detV && !det.isEmpty && localV && !localCalls.isEmpty then
    [("merged", _dedupe_calls (det ++ localCalls))] else [])

/-- Effective score of one pool candidate: its heuristic score plus the
fixed `+1` deterministic-stability bias. -/
def effScore (tools : List Tool) (q : Str) (expected : Nat)
    (name : String) (calls : List ToolCall) : Int :=
  _candidate_score calls tools q expected + (if name = "det" then 1 else 0)

/-- The selection fold (`best_score` starts at `-1e18`). -/
def pickBestGo (tools : List Tool) (q : Str) (expected : Nat) :
    String × List ToolCall × Int → List (String × List ToolCall) →
    String × List ToolCall × Int
  | best, [] => best
  | best, (name, calls) :: rest =>
      let sc := effScore tools q expected name calls
      if sc > best.2.2 then pickBestGo tools q expected (name, calls, sc) rest
      else pickBestGo tools q expected best rest

def scoreInit : String × List ToolCall × Int := ("", [], -(10 ^ 18 : Int))

structure ArbResult where
  origin : String
  calls : List ToolCall
  confidence : ℚ

/-- The candidate-selection block of the escalation path: pick the best
pool candidate and derive the confidence from the selected origin's floor
raised by the local tier's self-reported confidence; with an empty pool,
fall back to the local set, else the deterministic set. -/
def arbitrate (tools : List Tool) (q : Str) (expected : Nat)
    (det : List ToolCall) (detV : Bool) (localCalls : List ToolCall)
    (localV : Bool) (localConf : ℚ) : ArbResult :=
  let cands := buildCandidates det localCalls detV localV
  if cands.isEmpty then
    { origin := "",
      calls := if localCalls.isEmpty then det else localCalls,
      confidence := localConf }
  else
    let best := pickBestGo tools q expected scoreInit cands
    { origin := best.1, calls := best.2.1,
      confidence :=
        if best.1 = "local" then max localConf 0.80
        else if best.1 = "merged" then max localConf 0.85
        else max localConf 0.75 }

structure HybridResult where
  function_calls : List ToolCall
  total_time_ms : ℚ
  confidence : ℚ
  source : String

/-- The concatenated, preprocessed, stripped user text. -/
def userQuery (messages : List Msg) : Str :=
  stripBy isWsC (joinSpace
    ((_preprocess messages).filterMap
      (fun m => if m.role = "user" then some m.content else none)))

/-- `parts = _split_actions(user_query) if user_query else []`. -/
def partsOf (messages : List Msg) : Option (List Str) :=
  let q := userQuery messages
  if q.isEmpty then some [] else _split_actions q

/-- `generate_hybrid`.  The two external suspension points are parameters:
`localRes` is the outcome of the (wrapped) `generate_cactus` invocation and
`probeRes` that of the (unwrapped) `_ondevice_probe_ms` call; `.error`
models a raised exception.  `elapsedMs` stands for the wall-clock fallback.
The unused `confidence_threshold` parameter of the source is omitted. -/
def generate_hybrid (messages : List Msg) (tools : List Tool)
    (localRes : Except Unit LocalCactus) (probeRes : Except Unit ℚ)
    (elapsedMs : ℚ) : Except Unit HybridResult :=
  match partsOf messages with
  | none => .error ()
  | some parts =>
      let q := userQuery messages
      let avail := tools.map (·.name)
      let expected := _estimate_expected_actions parts
      let dc := detCallsP parts avail
      if needLocalB q parts tools then
        let loc := match localRes with
          | .ok r => r
          | .error _ => defaultLocal
        let localCalls := _dedupe_calls loc.function_calls
        let localV := if localCalls.isEmpty then false
          else _validate localCalls tools
        let a := arbitrate tools q expected dc (detValidP parts tools)
          localCalls localV loc.confidence
        .ok { function_calls := a.calls,
              total_time_ms :=
                if loc.total_time_ms > (0 : ℚ) then loc.total_time_ms
                else elapsedMs,
              confidence := a.confidence,
              source := "on-device" }
      else
        match probeRes with
        | .error e => .error e
        | .ok probeMs =>
            .ok { function_calls := dc,
                  total_time_ms :=
                    if probeMs > (0 : ℚ) then probeMs else elapsedMs,
                  confidence := max 0.92 (detQualityP parts tools q),
                  source := "on-device" }

/-! ## The demo registry (the seven standard capabilities with their
required parameters, as in the example usage and the app). -/

def sevenTools : List Tool :=
  [⟨"search_contacts", ["query"]⟩,
   ⟨"send_message", ["recipient", "message"]⟩,
   ⟨"create_reminder", ["title", "time"]⟩,
   ⟨"set_alarm", ["hour", "minute"]⟩,
   ⟨"set_timer", ["minutes"]⟩,
   ⟨"get_weather", ["location"]⟩,
   ⟨"play_music", ["song"]⟩]

/-! ## Shape of the deterministic candidates (argument invariants)

`wsNormB` says a span is whitespace-normalized: it neither starts nor ends
with whitespace, every whitespace character is a plain space, and no two
whitespace characters are adjacent — exactly the normal form `_clean_span`
produces. -/

def headNonWs : Str → Bool
  | [] => true
  | c :: _ => !isWsC c

/-- Every whitespace character is a plain space. -/
def allWsSp (s : Str) : Bool := s.all (fun c => !isWsC c || c = ' ')

/-- No two adjacent whitespace characters. -/
def noDoubleWs : Str → Bool
  | [] => true
  | [_] => true
  | a :: b :: r => !(isWsC a && isWsC b) && noDoubleWs (b :: r)

/-- No two adjacent whitespace characters and the last character is not
whitespace. -/
def tailNorm : Str → Bool
  | [] => true
  | [c] => !isWsC c
  | a :: b :: r => !(isWsC a && isWsC b) && tailNorm (b :: r)

def wsNormB (s : Str) : Bool := headNonWs s && allWsSp s && tailNorm s

def argStrOk : PyVal → Bool
  | .s v => !v.toList.isEmpty && wsNormB v.toList
  | _ => false

def argNatOk : PyVal → Bool
  | .n i => decide (0 ≤ i)
  | _ => false

/-- A one-argument map with the given key and a value passing `ok`. -/
def shape1B (args : List (String × PyVal)) (k : String)
    (ok : PyVal → Bool) : Bool :=
  match args with
  | [(k1, v1)] => k1 = k && ok v1
  | _ => false

/-- A two-argument map with the given keys in order, values passing their
checks. -/
def shape2B (args : List (String × PyVal)) (ka kb : String)
    (oka okb : PyVal → Bool) : Bool :=
  match args with
  | [(k1, v1), (k2, v2)] => k1 = ka && k2 = kb && oka v1 && okb v2
  | _ => false

/-- The argument-map shape `_parse_part` emits for each capability: the
fixed key set, string values non-blank and whitespace-normalized, numeric
values non-negative. -/
def callShapeB (c : ToolCall) : Bool :=
  if c.name = "search_contacts" then shape1B c.args "query" argStrOk
  else if c.name = "send_message" then
    shape2B c.args "recipient" "message" argStrOk argStrOk
  else if c.name = "create_reminder" then
    shape2B c.args "title" "time" argStrOk argStrOk
  else if c.name = "set_alarm" then
    shape2B c.args "hour" "minute" argNatOk argNatOk
  else if c.name = "set_timer" then shape1B c.args "minutes" argNatOk
  else if c.name = "get_weather" then shape1B c.args "location" argStrOk
  else if c.name = "play_music" then shape1B c.args "song" argStrOk
  else false

/-- The seven tool names the deterministic extractor can emit. -/
def sevenNamesL : List String :=
  ["search_contacts", "send_message", "create_reminder", "set_alarm",
   "set_timer", "get_weather", "play_music"]

/-- The argument keys present in every call the extractor emits for a
given tool name. -/
def emittedKeys (n : String) : List String :=
  if n = "search_contacts" then ["query"]
  else if n = "send_message" then ["recipient", "message"]
  else if n = "create_reminder" then ["title", "time"]
  else if n = "set_alarm" then ["hour", "minute"]
  else if n = "set_timer" then ["minutes"]
  else if n = "get_weather" then ["location"]
  else if n = "play_music" then ["song"]
  else []

/-- Invariant on the threaded `last_contact` slot: when set, it holds a
non-blank normalized span. -/
def ctxOkB : Ctx → Bool
  | none => true
  | some s => !s.isEmpty && wsNormB s

/-! # Proof development -/

set_option maxRecDepth 400000

/-! ## Deduplication lemmas -/

theorem dedupeGo_sublist (seen : List (String × Str)) (l : List ToolCall) :
    (dedupeGo seen l).Sublist l := by
  induction l generalizing seen with
  | nil => simp [dedupeGo]
  | cons c rest ih =>
      unfold dedupeGo
      split
      · exact (ih seen).cons c
      · exact (ih (_call_key c :: seen)).cons₂ c

theorem dedupeGo_covers (l : List ToolCall) :
    ∀ (seen : List (String × Str)) (c : ToolCall), c ∈ l →
      _call_key c ∉ seen →
      ∃ c' ∈ dedupeGo seen l, _call_key c' = _call_key c := by
  induction l with
  | nil => intro seen c hc; simp at hc
  | cons a rest ih =>
      intro seen c hc hns
      unfold dedupeGo
      rcases List.mem_cons.mp hc with rfl | hc'
      · split
        · next hmem => exact absurd hmem hns
        · exact ⟨c, List.mem_cons_self .., rfl⟩
      · split
        · next hmem => exact ih seen c hc' hns
        · next hmem =>
            by_cases hkey : _call_key c = _call_key a
            · exact ⟨a, List.mem_cons_self .., hkey.symm⟩
            · obtain ⟨c', hc'', hk⟩ := ih (_call_key a :: seen) c hc' (by
                intro h
                rcases List.mem_cons.mp h with h | h
                · exact hkey h
                · exact hns h)
              exact ⟨c', List.mem_cons_of_mem a hc'', hk⟩

theorem dedupeGo_first (l : List ToolCall) :
    ∀ (seen : List (String × Str)) (c : ToolCall), c ∈ dedupeGo seen l →
      _call_key c ∉ seen ∧
      ∃ pre post, l = pre ++ c :: post ∧
        ∀ d ∈ pre, _call_key d ≠ _call_key c := by
  induction l with
  | nil => intro seen c hc; simp [dedupeGo] at hc
  | cons a rest ih =>
      intro seen c hc
      unfold dedupeGo at hc
      split at hc
      · next hmem =>
          obtain ⟨hns, pre, post, heq, hpre⟩ := ih seen c hc
          refine ⟨hns, a :: pre, post, by simp [heq], ?_⟩
          intro d hd
          rcases List.mem_cons.mp hd with rfl | hd'
          · intro h; exact hns (h ▸ hmem)
          · exact hpre d hd'
      · next hmem =>
          rcases List.mem_cons.mp hc with rfl | hc'
          · exact ⟨hmem, [], rest, rfl, by simp⟩
          · obtain ⟨hns, pre, post, heq, hpre⟩ :=
              ih (_call_key a :: seen) c hc'
            have hne : _call_key c ≠ _call_key a := fun h =>
              hns (by rw [h]; exact List.mem_cons_self _ _)
            refine ⟨fun h => hns (List.mem_cons_of_mem _ h),
              a :: pre, post, by simp [heq], ?_⟩
            intro d hd
            rcases List.mem_cons.mp hd with rfl | hd'
            · exact fun h => hne h.symm
            · exact hpre d hd'

theorem dedupeGo_keys_not_seen (l : List ToolCall)
    (seen : List (String × Str)) (c : ToolCall) (hc : c ∈ dedupeGo seen l) :
    _call_key c ∉ seen :=
  (dedupeGo_first l seen c hc).1

theorem dedupeGo_idem (l : List ToolCall) :
    ∀ seen : List (String × Str), dedupeGo seen (dedupeGo seen l) =
      dedupeGo seen l := by
  induction l with
  | nil => intro seen; rfl
  | cons a rest ih =>
      intro seen
      by_cases hmem : _call_key a ∈ seen
      · have h1 : dedupeGo seen (a :: rest) = dedupeGo seen rest := by
          show (if _call_key a ∈ seen then dedupeGo seen rest
            else a :: dedupeGo (_call_key a :: seen) rest) = dedupeGo seen rest
          rw [if_pos hmem]
        rw [h1, ih seen]
      · have h1 : dedupeGo seen (a :: rest) =
            a :: dedupeGo (_call_key a :: seen) rest := by
          show (if _call_key a ∈ seen then dedupeGo seen rest
            else a :: dedupeGo (_call_key a :: seen) rest) = _
          rw [if_neg hmem]
        rw [h1]
        have h2 : dedupeGo seen (a :: dedupeGo (_call_key a :: seen) rest) =
            a :: dedupeGo (_call_key a :: seen)
              (dedupeGo (_call_key a :: seen) rest) := by
          show (if _call_key a ∈ seen then
              dedupeGo seen (dedupeGo (_call_key a :: seen) rest)
            else a :: dedupeGo (_call_key a :: seen)
              (dedupeGo (_call_key a :: seen) rest)) = _
          rw [if_neg hmem]
        rw [h2, ih (_call_key a :: seen)]

theorem dedupe_mem_of_mem_dedupe {c : ToolCall} {l : List ToolCall}
    (h : c ∈ _dedupe_calls l) : c ∈ l :=
  (dedupeGo_sublist [] l).mem h

/-- C8: deduplication keeps the first occurrence of each
(tool name, canonical argument serialization) key, preserves the relative
order of survivors (the result is a sublist), covers every key of the
input, and is idempotent. -/
theorem C8_dedupe_contract (l : List ToolCall) :
    (_dedupe_calls l).Sublist l ∧
    (∀ c ∈ l, ∃ c' ∈ _dedupe_calls l, _call_key c' = _call_key c) ∧
    (∀ c ∈ _dedupe_calls l, ∃ pre post, l = pre ++ c :: post ∧
      ∀ d ∈ pre, _call_key d ≠ _call_key c) ∧
    _dedupe_calls (_dedupe_calls l) = _dedupe_calls l :=
  ⟨dedupeGo_sublist [] l,
   fun c hc => dedupeGo_covers l [] c hc (by simp),
   fun c hc => (dedupeGo_first l [] c hc).2,
   dedupeGo_idem l []⟩

def timerCall5 : ToolCall := mkCall "set_timer" [("minutes", PyVal.n 5)]

def weatherCallSF : ToolCall :=
  mkCall "get_weather" [("location", PyVal.s "San Francisco")]

/-- Witness for C8 at a concrete list with a duplicate. -/
theorem C8_dedupe_contract_witness :
    _dedupe_calls [timerCall5, weatherCallSF, timerCall5] =
      [timerCall5, weatherCallSF] ∧
    _dedupe_calls (_dedupe_calls [timerCall5, weatherCallSF, timerCall5]) =
      _dedupe_calls [timerCall5, weatherCallSF, timerCall5] :=
  ⟨rfl, (C8_dedupe_contract [timerCall5, weatherCallSF, timerCall5]).2.2.2⟩

/-! ## Validator lemmas -/

theorem toolMapFind_go (tools : List Tool) (n : String) :
    ∀ acc : Option Tool,
      (tools.foldl (fun acc t => if t.name = n then some t else acc) acc =
          acc ∧ ∀ t ∈ tools, t.name ≠ n) ∨
      (∃ t, t ∈ tools ∧ t.name = n ∧
        tools.foldl (fun acc t => if t.name = n then some t else acc) acc =
          some t) := by
  induction tools with
  | nil => intro acc; left; simp
  | cons a rest ih =>
      intro acc
      by_cases ha : a.name = n
      · right
        rcases ih (some a) with ⟨heq, hnone⟩ | ⟨t, ht, htn, heq⟩
        · exact ⟨a, List.mem_cons_self _ _, ha, by
            simpa [List.foldl_cons, if_pos ha] using heq⟩
        · exact ⟨t, List.mem_cons_of_mem a ht, htn, by
            simpa [List.foldl_cons, if_pos ha] using heq⟩
      · rcases ih acc with ⟨heq, hnone⟩ | ⟨t, ht, htn, heq⟩
        · left
          refine ⟨by simpa [List.foldl_cons, if_neg ha] using heq, ?_⟩
          intro t ht
          rcases List.mem_cons.mp ht with rfl | ht'
          · exact ha
          · exact hnone t ht'
        · right
          exact ⟨t, List.mem_cons_of_mem a ht, htn, by
            simpa [List.foldl_cons, if_neg ha] using heq⟩

theorem toolMapFind_eq_none (tools : List Tool) (n : String)
    (h : ∀ t ∈ tools, t.name ≠ n) : toolMapFind tools n = none := by
  rcases toolMapFind_go tools n none with ⟨heq, _⟩ | ⟨t, ht, htn, _⟩
  · exact heq
  · exact absurd htn (h t ht)

theorem toolMapFind_isSome_iff (tools : List Tool) (n : String) :
    (toolMapFind tools n).isSome ↔ ∃ t ∈ tools, t.name = n := by
  constructor
  · intro h
    rcases toolMapFind_go tools n none with ⟨heq, _⟩ | ⟨t, ht, htn, _⟩
    · rw [toolMapFind] at h; rw [heq] at h; simp at h
    · exact ⟨t, ht, htn⟩
  · rintro ⟨t, ht, htn⟩
    rcases toolMapFind_go tools n none with ⟨_, hnone⟩ | ⟨t', _, _, heq⟩
    · exact absurd htn (hnone t ht)
    · rw [toolMapFind, heq]; rfl

theorem toolMapFind_mem {tools : List Tool} {n : String} {t : Tool}
    (h : toolMapFind tools n = some t) : t ∈ tools ∧ t.name = n := by
  rcases toolMapFind_go tools n none with ⟨heq, _⟩ | ⟨t', ht', htn', heq'⟩
  · rw [toolMapFind, heq] at h; cases h
  · rw [toolMapFind, heq'] at h
    cases h
    exact ⟨ht', htn'⟩

theorem valOkB_iff (o : Option PyVal) :
    valOkB o = true ↔
      ∃ v, o = some v ∧ v ≠ PyVal.s "" ∧
        (∀ xs, v = PyVal.l xs → xs ≠ []) := by
  cases o with
  | none => simp [valOkB]
  | some v =>
      cases v with
      | s str =>
          simp only [valOkB, Bool.not_eq_true']
          constructor
          · intro h
            refine ⟨.s str, rfl, by simpa using h, by intro xs h'; cases h'⟩
          · rintro ⟨v, hv, hne, _⟩
            cases hv
            simpa using hne
      | n i =>
          constructor
          · intro _
            exact ⟨.n i, rfl, by simp, by intro xs h'; cases h'⟩
          · intro _
            rfl
      | l xs =>
          simp only [valOkB, Bool.not_eq_true']
          constructor
          · intro h
            exact ⟨.l xs, rfl, by simp, by
              intro ys hy
              cases hy
              simpa [List.isEmpty_iff] using h⟩
          · rintro ⟨v, hv, _, hl⟩
            cases hv
            simpa [List.isEmpty_iff] using hl xs rfl

theorem callOkB_iff (tools : List Tool) (c : ToolCall) :
    callOkB tools c = true ↔
      (∃ t ∈ tools, t.name = c.name) ∧
      ∀ r ∈ requiredOf tools c.name, valOkB (argGet c.args r) = true := by
  unfold callOkB requiredOf
  cases hfind : toolMapFind tools c.name with
  | none =>
      simp only [Option.elim]
      constructor
      · intro h; cases h
      · rintro ⟨⟨t, ht, htn⟩, _⟩
        have := (toolMapFind_isSome_iff tools c.name).mpr ⟨t, ht, htn⟩
        rw [hfind] at this; cases this
  | some t =>
      simp only [Option.elim, List.all_eq_true]
      constructor
      · intro h
        exact ⟨⟨t, (toolMapFind_mem hfind).1, (toolMapFind_mem hfind).2⟩,
          fun r hr => h r hr⟩
      · rintro ⟨_, h⟩
        exact fun r hr => h r hr

/-- C4 (amended): the validator accepts a call set exactly when every call
names a registered tool and every required parameter is present and is
neither the empty string nor an empty list — a whitespace-only string is
accepted. -/
theorem C4_validity_amended (calls : List ToolCall) (tools : List Tool) :
    _validate calls tools = true ↔
      ∀ c ∈ calls, (∃ t ∈ tools, t.name = c.name) ∧
        ∀ r ∈ requiredOf tools c.name,
          ∃ v, argGet c.args r = some v ∧ v ≠ PyVal.s "" ∧
            (∀ xs, v = PyVal.l xs → xs ≠ []) := by
  unfold _validate
  rw [List.all_eq_true]
  constructor
  · intro h c hc
    obtain ⟨hreg, hreq⟩ := (callOkB_iff tools c).mp (h c hc)
    exact ⟨hreg, fun r hr => (valOkB_iff _).mp (hreq r hr)⟩
  · intro h c hc
    obtain ⟨hreg, hreq⟩ := h c hc
    exact (callOkB_iff tools c).mpr
      ⟨hreg, fun r hr => (valOkB_iff _).mpr (hreq r hr)⟩

def weatherTool : Tool := ⟨"get_weather", ["location"]⟩

/-- Counterexample to C4 as stated: a required string consisting only of
whitespace is accepted as valid by `_validate`. -/
theorem C4_blank_counterexample :
    _validate [mkCall "get_weather" [("location", PyVal.s " ")]]
      [weatherTool] = true := rfl

/-- Witness for the amended C4 at a concrete call set. -/
theorem C4_validity_amended_witness :
    (∃ t ∈ [weatherTool], t.name = weatherCallSF.name) ∧
    (∃ v, argGet weatherCallSF.args "location" = some v ∧
      v ≠ PyVal.s "" ∧ (∀ xs, v = PyVal.l xs → xs ≠ [])) := by
  have h := (C4_validity_amended [weatherCallSF] [weatherTool]).mp rfl
    weatherCallSF (List.mem_cons_self _ _)
  exact ⟨h.1, h.2 "location" (by decide)⟩

/-! ## Escalation and confidence lemmas -/

/-- Evaluation helper for the deterministic quality ratio: once the integer
credit sums are known, the quality is the clamped ratio. -/
theorem detQualityP_eval (parts : List Str) (tools : List Tool) (query : Str)
    (dc : List ToolCall) (sc mx : ℤ)
    (h1 : detCallsP parts (tools.map (·.name)) = dc)
    (h2 : dc.isEmpty = false)
    (h3 : _validate dc tools = true)
    (h4 : (dc.map (fun c => (qualCall tools (strLower query) c).1)).sum = sc)
    (h5 : (dc.map (fun c => (qualCall tools (strLower query) c).2)).sum = mx)
    (h6 : ¬ (mx ≤ 0)) :
    detQualityP parts tools query =
      max 0 (min 1 ((sc : ℚ) / (mx : ℚ))) := by
  unfold detQualityP _deterministic_quality
  simp only [h1, h2, Bool.false_eq_true, if_false, h3, Bool.not_true,
    h4, h5, h6, if_neg h6]

/-- The escalation flag is false whenever the deterministic set is valid,
its quality reaches the threshold and its size matches the expectation. -/
theorem needLocalB_false (q : Str) (parts : List Str) (tools : List Tool)
    (hv : detValidP parts tools = true)
    (hq : (0.45 : ℚ) ≤ detQualityP parts tools q)
    (hc : (detCallsP parts (tools.map (·.name))).length =
      _estimate_expected_actions parts) :
    needLocalB q parts tools = false := by
  have hE : (detCallsP parts (tools.map (·.name))).isEmpty = false := by
    have hvd : (if (detCallsP parts (tools.map (·.name))).isEmpty then false
        else _validate (detCallsP parts (tools.map (·.name))) tools) =
          true := hv
    by_contra h
    have h' : (detCallsP parts (tools.map (·.name))).isEmpty = true := by
      revert h
      cases (detCallsP parts (tools.map (·.name))).isEmpty <;> simp
    rw [h'] at hvd
    simp at hvd
  unfold needLocalB
  simp only [hE, hv, hc, Bool.false_or, Bool.not_true, Bool.false_and,
    Bool.and_false, Bool.or_false, Bool.false_eq_true]
  have hlt : decide (_estimate_expected_actions parts <
      _estimate_expected_actions parts) = false := by simp
  have hqd : decide (detQualityP parts tools q < (0.45 : ℚ)) = false :=
    decide_eq_false (not_lt.mpr hq)
  simp [hlt, hqd]

/-- C1: under a valid deterministic set, quality at least `0.45` and a call
count equal to the expected-action-count, `generate_hybrid` never escalates:
the flag is false and the outcome is independent of the local tier. -/
theorem C1_monotonic_escalation (messages : List Msg) (tools : List Tool)
    (parts : List Str)
    (hp : partsOf messages = some parts)
    (hv : detValidP parts tools = true)
    (hq : (0.45 : ℚ) ≤ detQualityP parts tools (userQuery messages))
    (hc : (detCallsP parts (tools.map (·.name))).length =
      _estimate_expected_actions parts) :
    needLocalB (userQuery messages) parts tools = false ∧
    ∀ (l1 l2 : Except Unit LocalCactus) (pr : Except Unit ℚ) (el : ℚ),
      generate_hybrid messages tools l1 pr el =
        generate_hybrid messages tools l2 pr el := by
  have hnl := needLocalB_false (userQuery messages) parts tools hv hq hc
  refine ⟨hnl, ?_⟩
  intro l1 l2 pr el
  unfold generate_hybrid
  simp only [hp, hnl, Bool.false_eq_true, if_false]

/-- Confidence formula by selected origin, read off the arbitration step. -/
theorem arbitrate_conf_of_origin (tools : List Tool) (q : Str)
    (expected : Nat) (det : List ToolCall) (dv : Bool)
    (localCalls : List ToolCall) (lv : Bool) (conf : ℚ) :
    ((arbitrate tools q expected det dv localCalls lv conf).origin =
        "local" →
      (arbitrate tools q expected det dv localCalls lv conf).confidence =
        max conf 0.80) ∧
    ((arbitrate tools q expected det dv localCalls lv conf).origin =
        "merged" →
      (arbitrate tools q expected det dv localCalls lv conf).confidence =
        max conf 0.85) ∧
    ((arbitrate tools q expected det dv localCalls lv conf).origin =
        "det" →
      (arbitrate tools q expected det dv localCalls lv conf).confidence =
        max conf 0.75) := by
  unfold arbitrate
  by_cases hc : (buildCandidates det localCalls dv lv).isEmpty
  · simp only [hc, if_true]
    refine ⟨fun h => ?_, fun h => ?_, fun h => ?_⟩ <;> simp at h
  · simp only [hc, Bool.false_eq_true, if_false]
    refine ⟨fun h => ?_, fun h => ?_, fun h => ?_⟩ <;>
      simp only at h <;> simp [h]

/-- C6: without escalation the deterministic set is returned with
confidence `max 0.92 quality`; with escalation the arbitration outcome is
returned, and a selected pool origin fixes the confidence as the origin's
floor raised by the local tier's self-reported confidence. -/
theorem C6_confidence_contract (messages : List Msg) (tools : List Tool)
    (parts : List Str) (loc : LocalCactus) (pr el : ℚ)
    (hp : partsOf messages = some parts) :
    (needLocalB (userQuery messages) parts tools = false →
      generate_hybrid messages tools (.ok loc) (.ok pr) el =
        .ok ⟨detCallsP parts (tools.map (·.name)),
             if pr > (0 : ℚ) then pr else el,
             max 0.92 (detQualityP parts tools (userQuery messages)),
             "on-device"⟩) ∧
    (needLocalB (userQuery messages) parts tools = true →
      (generate_hybrid messages tools (.ok loc) (.ok pr) el =
        .ok ⟨(arbitrate tools (userQuery messages)
                (_estimate_expected_actions parts)
                (detCallsP parts (tools.map (·.name)))
                (detValidP parts tools)
                (_dedupe_calls loc.function_calls)
                (if (_dedupe_calls loc.function_calls).isEmpty then false
                 else _validate (_dedupe_calls loc.function_calls) tools)
                loc.confidence).calls,
             if loc.total_time_ms > (0 : ℚ) then loc.total_time_ms else el,
             (arbitrate tools (userQuery messages)
                (_estimate_expected_actions parts)
                (detCallsP parts (tools.map (·.name)))
                (detValidP parts tools)
                (_dedupe_calls loc.function_calls)
                (if (_dedupe_calls loc.function_calls).isEmpty then false
                 else _validate (_dedupe_calls loc.function_calls) tools)
                loc.confidence).confidence,
             "on-device"⟩) ∧
      (∀ origin floor,
        (origin = "local" ∧ floor = (0.80 : ℚ)) ∨
        (origin = "merged" ∧ floor = (0.85 : ℚ)) ∨
        (origin = "det" ∧ floor = (0.75 : ℚ)) →
        (arbitrate tools (userQuery messages)
            (_estimate_expected_actions parts)
            (detCallsP parts (tools.map (·.name)))
            (detValidP parts tools)
            (_dedupe_calls loc.function_calls)
            (if (_dedupe_calls loc.function_calls).isEmpty then false
             else _validate (_dedupe_calls loc.function_calls) tools)
            loc.confidence).origin = origin →
          (arbitrate tools (userQuery messages)
              (_estimate_expected_actions parts)
              (detCallsP parts (tools.map (·.name)))
              (detValidP parts tools)
              (_dedupe_calls loc.function_calls)
              (if (_dedupe_calls loc.function_calls).isEmpty then false
               else _validate (_dedupe_calls loc.function_calls) tools)
              loc.confidence).confidence = max loc.confidence floor)) := by
  constructor
  · intro hnl
    unfold generate_hybrid
    simp only [hp, hnl, Bool.false_eq_true, if_false]
  · intro hnl
    constructor
    · unfold generate_hybrid
      simp only [hp, hnl, if_true]
    · intro origin floor hor heq
      obtain h3 := arbitrate_conf_of_origin tools (userQuery messages)
        (_estimate_expected_actions parts)
        (detCallsP parts (tools.map (·.name)))
        (detValidP parts tools)
        (_dedupe_calls loc.function_calls)
        (if (_dedupe_calls loc.function_calls).isEmpty then false
         else _validate (_dedupe_calls loc.function_calls) tools)
        loc.confidence
      rcases hor with ⟨rfl, rfl⟩ | ⟨rfl, rfl⟩ | ⟨rfl, rfl⟩
      · exact h3.1 heq
      · exact h3.2.1 heq
      · exact h3.2.2 heq

/-! ## Concrete scenarios -/

def pA : Str := String.toList "What is the weather in San Francisco?"

def msgsA : List Msg := [⟨"user", pA⟩]

theorem scenarioA_quality :
    detQualityP [pA] [weatherTool] (userQuery msgsA) =
      max 0 (min 1 (((4 : ℤ) : ℚ) / ((4 : ℤ) : ℚ))) :=
  detQualityP_eval [pA] [weatherTool] (userQuery msgsA) [weatherCallSF] 4 4
    rfl rfl rfl rfl rfl (by decide)

theorem scenarioA_quality_ge :
    (0.45 : ℚ) ≤ detQualityP [pA] [weatherTool] (userQuery msgsA) := by
  rw [scenarioA_quality]
  have h : (((4 : ℤ) : ℚ) / ((4 : ℤ) : ℚ)) = 1 := by norm_num
  rw [h]
  norm_num

theorem scenarioA_needLocal :
    needLocalB (userQuery msgsA) [pA] [weatherTool] = false :=
  needLocalB_false (userQuery msgsA) [pA] [weatherTool] rfl
    scenarioA_quality_ge rfl

/-- C3 (the code evaluated at the failing input): with a valid
high-quality deterministic parse the engine takes the no-escalation path
and calls the minimal local presence probe outside any exception handler,
so a probe exception aborts the whole request instead of degrading. -/
theorem C3_probe_exception_aborts :
    generate_hybrid msgsA [weatherTool] (.ok defaultLocal) (.error ()) 5 =
      .error () := by
  unfold generate_hybrid
  simp only [show partsOf msgsA = some [pA] from rfl, scenarioA_needLocal,
    Bool.false_eq_true, if_false]

/-- Witness for C1, at Scenario A with the weather-only registry. -/
theorem C1_monotonic_escalation_witness :
    needLocalB (userQuery msgsA) [pA] [weatherTool] = false ∧
    generate_hybrid msgsA [weatherTool] (.ok defaultLocal) (.ok 1) 5 =
      generate_hybrid msgsA [weatherTool] (.error ()) (.ok 1) 5 := by
  have h := C1_monotonic_escalation msgsA [weatherTool] [pA] rfl rfl
    scenarioA_quality_ge rfl
  exact ⟨h.1, h.2 (.ok defaultLocal) (.error ()) (.ok 1) 5⟩

/-- Witness for C6, on the no-escalation regime of Scenario A. -/
theorem C6_confidence_contract_witness :
    generate_hybrid msgsA [weatherTool] (.ok defaultLocal) (.ok 1) 5 =
      .ok ⟨detCallsP [pA] ([weatherTool].map (·.name)),
           if (1 : ℚ) > (0 : ℚ) then 1 else 5,
           max 0.92 (detQualityP [pA] [weatherTool] (userQuery msgsA)),
           "on-device"⟩ :=
  (C6_confidence_contract msgsA [weatherTool] [pA] defaultLocal 1 5 rfl).1
    scenarioA_needLocal

def reminderCallBob : ToolCall :=
  mkCall "create_reminder"
    [("title", PyVal.s "call Bob"), ("time", PyVal.s "3:00 PM")]

def alarmCall6 : ToolCall :=
  mkCall "set_alarm" [("hour", PyVal.n 6), ("minute", PyVal.n 0)]

def msgB : List Msg :=
  [⟨"user",
    String.toList "set a timer for 5 minutes and remind me to call Bob at 3 PM"⟩]

/-- C2: Scenario B — the compound utterance splits into its two action
spans and the deterministic pipeline yields exactly the timer call and the
reminder call, in that order. -/
theorem C2_scenario_timer_reminder :
    partsOf msgB = some [String.toList "set a timer for 5 minutes",
      String.toList "remind me to call Bob at 3 PM"] ∧
    detCallsP [String.toList "set a timer for 5 minutes",
        String.toList "remind me to call Bob at 3 PM"]
      (sevenTools.map (·.name)) = [timerCall5, reminderCallBob] :=
  ⟨rfl, rfl⟩

def msgC : List Msg := [⟨"user", String.toList "wake me up at 6"⟩]

/-- C9: Scenario C — the preprocessor rewrites the wake-up phrasing and the
extractor yields exactly one alarm call with hour 6, minute 0. -/
theorem C9_scenario_wake_me_up :
    _preprocess msgC = [⟨"user", String.toList "set an alarm for 6"⟩] ∧
    partsOf msgC = some [String.toList "set an alarm for 6"] ∧
    detCallsP [String.toList "set an alarm for 6"]
      (sevenTools.map (·.name)) = [alarmCall6] :=
  ⟨rfl, rfl, rfl⟩

/-! ## Matcher post-conditions (for the alarm-parser bounds) -/

/-- Every outcome of the matcher satisfies `P`. -/
def MSat {α : Type} (P : α → Prop) (m : M α) : Prop :=
  ∀ st p, p ∈ m st → P p.1

theorem MSat_bind {α β : Type} {P : β → Prop} (m : M α) (f : α → M β)
    (hf : ∀ a, MSat P (f a)) : MSat P (m >>= f) := by
  intro st p hp
  have hp' : p ∈ (m st).flatMap (fun r => f r.1 r.2) := hp
  obtain ⟨r, _, hr⟩ := List.mem_flatMap.mp hp'
  exact hf r.1 r.2 p hr

theorem MSat_bind_dep {α β : Type} {P : β → Prop} (Q : α → Prop) (m : M α)
    (f : α → M β) (hm : MSat Q m) (hf : ∀ a, Q a → MSat P (f a)) :
    MSat P (m >>= f) := by
  intro st p hp
  have hp' : p ∈ (m st).flatMap (fun r => f r.1 r.2) := hp
  obtain ⟨r, hr1, hr⟩ := List.mem_flatMap.mp hp'
  exact hf r.1 (hm st r hr1) r.2 p hr

theorem MSat_pure {α : Type} {P : α → Prop} (a : α) (h : P a) :
    MSat P (pure a : M α) := by
  intro st p hp
  have hp' : p = (a, st) := by
    have hmem : p ∈ [(a, st)] := hp
    simpa using hmem
  subst hp'
  exact h

theorem MSat_malt {α : Type} {P : α → Prop} {m1 m2 : M α}
    (h1 : MSat P m1) (h2 : MSat P m2) : MSat P (malt m1 m2) := by
  intro st p hp
  rcases List.mem_append.mp hp with h | h
  · exact h1 st p h
  · exact h2 st p h

theorem MSat_takeC {p : Char → Bool} :
    MSat (fun c => p c = true) (takeC p) := by
  intro st q hq
  unfold takeC at hq
  rcases st with ⟨pv, rest⟩
  cases rest with
  | nil => simp at hq
  | cons c r =>
      by_cases hc : p c
      · simp only [hc, if_true, List.mem_singleton] at hq
        rw [hq]
        exact hc
      · simp [hc] at hq

theorem mem_of_head_eq {α : Type} {l : List α} {x : α}
    (h : l.head? = some x) : x ∈ l := by
  cases l with
  | nil => cases h
  | cons a t =>
      cases h
      exact List.mem_cons_self _ _

theorem searchAux_sat {α : Type} {P : α → Prop} {m : M α} (h : MSat P m) :
    ∀ (s : Str) (pv : Option Char) (a : α), searchAux m pv s = some a →
      P a := by
  intro s
  induction s with
  | nil =>
      intro pv a ha
      unfold searchAux at ha
      cases hm : (m ⟨pv, []⟩).head? with
      | none =>
          simp only [hm] at ha
          exact Option.noConfusion ha
      | some r =>
          simp only [hm, Option.some.injEq] at ha
          subst ha
          exact h _ r (mem_of_head_eq hm)
  | cons c rest ih =>
      intro pv a ha
      unfold searchAux at ha
      cases hm : (m ⟨pv, c :: rest⟩).head? with
      | none =>
          simp only [hm] at ha
          exact ih (some c) a ha
      | some r =>
          simp only [hm, Option.some.injEq] at ha
          subst ha
          exact h _ r (mem_of_head_eq hm)

theorem searchM_sat {α : Type} {P : α → Prop} {m : M α} (h : MSat P m)
    {s : Str} {a : α} (ha : searchM m s = some a) : P a :=
  searchAux_sat h s none a ha

theorem digitVal_le_of_le {c : Char} {d : Char} (h : c ≤ d) :
    digitVal c ≤ d.toNat - 48 := by
  unfold digitVal
  have : c.toNat ≤ d.toNat := h
  omega

theorem digitVal_le9 {c : Char} (h : isDigitC c = true) : digitVal c ≤ 9 := by
  unfold isDigitC at h
  have h2 : c ≤ '9' := by
    rcases Bool.and_eq_true .. |>.mp h with ⟨_, h2⟩
    exact of_decide_eq_true h2
  have h3 := digitVal_le_of_le h2
  have h4 : ('9').toNat = 57 := rfl
  omega

theorem digitVal_le1 {c : Char} (h : isC01 c = true) : digitVal c ≤ 1 := by
  unfold isC01 at h
  rcases Bool.or_eq_true .. |>.mp h with h | h
  · rw [of_decide_eq_true h]; decide
  · rw [of_decide_eq_true h]; decide

theorem digitVal_le3 {c : Char} (h : isC03 c = true) : digitVal c ≤ 3 := by
  unfold isC03 at h
  have h2 : c ≤ '3' := by
    rcases Bool.and_eq_true .. |>.mp h with ⟨_, h2⟩
    exact of_decide_eq_true h2
  have h3 := digitVal_le_of_le h2
  have h4 : ('3').toNat = 51 := rfl
  omega

theorem digitVal_le5 {c : Char} (h : isC05 c = true) : digitVal c ≤ 5 := by
  unfold isC05 at h
  have h2 : c ≤ '5' := by
    rcases Bool.and_eq_true .. |>.mp h with ⟨_, h2⟩
    exact of_decide_eq_true h2
  have h3 := digitVal_le_of_le h2
  have h4 : ('5').toNat = 53 := rfl
  omega

theorem hour24M_sat : MSat (fun h => h ≤ 23) hour24M := by
  unfold hour24M
  refine MSat_malt (MSat_malt ?_ ?_) ?_
  · refine MSat_bind_dep (fun c => isC01 c = true) _ _ MSat_takeC
      (fun a ha => ?_)
    refine MSat_bind_dep (fun c => isDigitC c = true) _ _ MSat_takeC
      (fun b hb => ?_)
    have h1 := digitVal_le1 ha
    have h2 := digitVal_le9 hb
    exact MSat_pure _ (by omega)
  · refine MSat_bind_dep (fun c => isDigitC c = true) _ _ MSat_takeC
      (fun a ha => ?_)
    have h1 := digitVal_le9 ha
    exact MSat_pure _ (by omega)
  · refine MSat_bind _ _ (fun a => ?_)
    refine MSat_bind_dep (fun c => isC03 c = true) _ _ MSat_takeC
      (fun b hb => ?_)
    have h1 := digitVal_le3 hb
    exact MSat_pure _ (by omega)

theorem minute59M_sat : MSat (fun m => m ≤ 59) minute59M := by
  unfold minute59M
  refine MSat_bind_dep (fun c => isC05 c = true) _ _ MSat_takeC
    (fun a ha => ?_)
  refine MSat_bind_dep (fun c => isDigitC c = true) _ _ MSat_takeC
    (fun b hb => ?_)
  have h1 := digitVal_le5 ha
  have h2 := digitVal_le9 hb
  exact MSat_pure _ (by omega)

theorem time24M_sat : MSat (fun p => p.1 ≤ 23 ∧ p.2 ≤ 59) time24M := by
  unfold time24M
  refine MSat_bind _ _ (fun u => ?_)
  refine MSat_bind_dep (fun h => h ≤ 23) _ _ hour24M_sat (fun h hh => ?_)
  refine MSat_bind _ _ (fun c => ?_)
  refine MSat_bind_dep (fun m => m ≤ 59) _ _ minute59M_sat (fun m hm => ?_)
  refine MSat_bind _ _ (fun u => ?_)
  exact MSat_pure _ ⟨hh, hm⟩

theorem optG_minute_sat :
    MSat (fun o : Option Nat => o.getD 0 ≤ 59)
      (optG (do let _ ← takeC (fun c => c = ':'); minute59M)) := by
  unfold optG
  refine MSat_malt ?_ (MSat_pure _ (by simp))
  refine MSat_bind_dep (fun m => m ≤ 59) _ _ ?_ (fun m hm => ?_)
  · refine MSat_bind _ _ (fun c => ?_)
    exact minute59M_sat
  · exact MSat_pure _ (by simpa using hm)

theorem bareHourNumM_sat : MSat (fun p : Nat × Nat => p.2 ≤ 59)
    bareHourNumM := by
  unfold bareHourNumM
  refine MSat_bind _ _ (fun u1 => ?_)
  refine MSat_bind _ _ (fun u2 => ?_)
  refine MSat_bind _ _ (fun u3 => ?_)
  refine MSat_bind _ _ (fun h => ?_)
  refine MSat_bind_dep (fun o : Option Nat => o.getD 0 ≤ 59) _ _
    optG_minute_sat (fun o ho => ?_)
  refine MSat_bind _ _ (fun u4 => ?_)
  exact MSat_pure _ ho

theorem MSat_foldr_malt {α : Type} {P : α → Prop} (ms : List (M α))
    (h : ∀ m ∈ ms, MSat P m) : MSat P (ms.foldr malt mfail) := by
  induction ms with
  | nil =>
      intro st p hp
      cases hp
  | cons m rest ih =>
      exact MSat_malt (h m (List.mem_cons_self _ _))
        (ih (fun m' hm' => h m' (List.mem_cons_of_mem _ hm')))

theorem wordHourAlt_sat : MSat (fun n => n ≤ 12) wordHourAlt := by
  unfold wordHourAlt
  refine MSat_foldr_malt _ (fun m hm => ?_)
  obtain ⟨p, hp, rfl⟩ := List.mem_map.mp hm
  have hle : p.2 ≤ 12 :=
    of_decide_eq_true (List.mem_filter.mp hp).2
  refine MSat_bind _ _ (fun u1 => ?_)
  refine MSat_bind _ _ (fun u2 => ?_)
  exact MSat_pure _ hle

theorem bareHourWordM_sat : MSat (fun n => n ≤ 12) bareHourWordM := by
  unfold bareHourWordM
  refine MSat_bind _ _ (fun u1 => ?_)
  refine MSat_bind _ _ (fun u2 => ?_)
  refine MSat_bind _ _ (fun u3 => ?_)
  refine MSat_bind_dep (fun n => n ≤ 12) _ _ wordHourAlt_sat
    (fun n hn => ?_)
  refine MSat_bind _ _ (fun u4 => ?_)
  exact MSat_pure _ hn

/-- Counterexample to C5 as stated: the bare `at/for N` form accepts 15
(outside 0–12); a meridiem hour of 99 passes through unconverted (outside
0–23); a meridiem minute field of 99 is kept (outside 0–59). -/
theorem C5_alarm_counterexample :
    _parse_alarm_args (String.toList "set an alarm for 15") =
      some (15, 0) ∧
    _parse_alarm_args (String.toList "set an alarm at 99 pm") =
      some (99, 0) ∧
    _parse_alarm_args (String.toList "set an alarm for 5:99 pm") =
      some (17, 99) :=
  ⟨rfl, rfl, rfl⟩

/-- C5 (amended): every alarm-parser result is non-negative, and whenever
no meridiem form is present (the 24h, bare-numeric — accepted for hours
0–23 — and bare-word paths) the result satisfies hour 0–23 and minute
0–59.  The meridiem path converts 12h to 24h only for `AM 12` and
`PM hour < 12` and enforces no upper bounds of its own. -/
theorem C5_alarm_parser_amended (text : Str) (r : Int × Int)
    (h : _parse_alarm_args text = some r) :
    0 ≤ r.1 ∧ 0 ≤ r.2 ∧
    (_parse_ampm_time text = none → r.1 ≤ 23 ∧ r.2 ≤ 59) := by
  unfold _parse_alarm_args at h
  cases hampm : _parse_ampm_time text with
  | some t =>
      obtain ⟨h0, m0, ap⟩ := t
      simp only [hampm, Option.some.injEq] at h
      subst h
      refine ⟨?_, ?_, fun hcon => Option.noConfusion hcon⟩
      · show (0 : ℤ) ≤ ((_ : ℕ) : ℤ)
        positivity
      · show (0 : ℤ) ≤ ((m0 : ℕ) : ℤ)
        positivity
  | none =>
      simp only [hampm] at h
      cases h24 : searchM time24M text with
      | some p =>
          obtain ⟨ph, pm⟩ := p
          have hpb := searchM_sat time24M_sat h24
          simp only at hpb
          simp only [h24, Option.some.injEq] at h
          subst h
          refine ⟨?_, ?_, fun hcon => ⟨?_, ?_⟩⟩
          · show (0 : ℤ) ≤ ((ph : ℕ) : ℤ); positivity
          · show (0 : ℤ) ≤ ((pm : ℕ) : ℤ); positivity
          · show ((ph : ℕ) : ℤ) ≤ 23
            exact_mod_cast hpb.1
          · show ((pm : ℕ) : ℤ) ≤ 59
            exact_mod_cast hpb.2
      | none =>
          simp only [h24] at h
          cases hbare : searchM bareHourNumM text with
          | some p =>
              obtain ⟨ph, pm⟩ := p
              have hmb : pm ≤ 59 := searchM_sat bareHourNumM_sat hbare
              simp only [hbare] at h
              by_cases hle : ph ≤ 23
              · rw [if_pos hle] at h
                cases h
                refine ⟨?_, ?_, fun hcon => ⟨?_, ?_⟩⟩
                · show (0 : ℤ) ≤ ((ph : ℕ) : ℤ); positivity
                · show (0 : ℤ) ≤ ((pm : ℕ) : ℤ); positivity
                · show ((ph : ℕ) : ℤ) ≤ 23
                  exact_mod_cast hle
                · show ((pm : ℕ) : ℤ) ≤ 59
                  exact_mod_cast hmb
              · rw [if_neg hle] at h
                cases hw : searchM bareHourWordM text with
                | some n =>
                    have hn : n ≤ 12 := searchM_sat bareHourWordM_sat hw
                    simp only [hw, Option.some.injEq] at h
                    subst h
                    refine ⟨?_, le_refl 0, fun hcon => ⟨?_, by norm_num⟩⟩
                    · show (0 : ℤ) ≤ ((n : ℕ) : ℤ); positivity
                    · show ((n : ℕ) : ℤ) ≤ 23
                      have hcast : (n : ℤ) ≤ 12 := by exact_mod_cast hn
                      omega
                | none =>
                    simp only [hw] at h
                    exact Option.noConfusion h
          | none =>
              simp only [hbare] at h
              cases hw : searchM bareHourWordM text with
              | some n =>
                  have hn : n ≤ 12 := searchM_sat bareHourWordM_sat hw
                  simp only [hw, Option.some.injEq] at h
                  subst h
                  refine ⟨?_, le_refl 0, fun hcon => ⟨?_, by norm_num⟩⟩
                  · show (0 : ℤ) ≤ ((n : ℕ) : ℤ); positivity
                  · show ((n : ℕ) : ℤ) ≤ 23
                    have hcast : (n : ℤ) ≤ 12 := by exact_mod_cast hn
                    omega
              | none =>
                  simp only [hw] at h
                  exact Option.noConfusion h

/-- Witness for the amended C5 at a concrete utterance. -/
theorem C5_alarm_parser_amended_witness :
    0 ≤ (6 : Int) ∧ 0 ≤ (0 : Int) ∧
    ((6 : Int) ≤ 23 ∧ (0 : Int) ≤ 59) := by
  have h := C5_alarm_parser_amended (String.toList "set an alarm for 6")
    (6, 0) rfl
  exact ⟨h.1, h.2.1, h.2.2 rfl⟩

/-! ## Candidate-score bounds (for the filler-recipient selection claim) -/

theorem scoreArgBonus_nonneg (q : Str) (v : PyVal) :
    0 ≤ scoreArgBonus q v := by
  cases v with
  | s str =>
      simp only [scoreArgBonus]
      split_ifs <;> norm_num
  | n i =>
      simp only [scoreArgBonus]
      split_ifs <;> norm_num
  | l vs =>
      simp [scoreArgBonus]

theorem scoreArgBonus_le3 (q : Str) (v : PyVal) :
    scoreArgBonus q v ≤ 3 := by
  cases v with
  | s str =>
      simp only [scoreArgBonus]
      split_ifs <;> norm_num
  | n i =>
      simp only [scoreArgBonus]
      split_ifs <;> norm_num
  | l vs =>
      simp [scoreArgBonus]

theorem msgPenalty_nonpos (q : Str) (c : ToolCall) :
    msgPenalty q c ≤ 0 := by
  simp only [msgPenalty]
  split_ifs <;> norm_num

theorem msgPenalty_zero (q : Str) (c : ToolCall)
    (h : c.name ≠ "send_message") : msgPenalty q c = 0 := by
  simp only [msgPenalty]
  rw [if_neg h]

theorem msgPenalty_filler (q : Str) (c : ToolCall) (vr vm : PyVal)
    (hname : c.name = "send_message")
    (hargs : c.args = [("recipient", vr), ("message", vm)])
    (hfill : strLower (stripBy isWsC (pyStr vr)) ∈ fillerWords) :
    msgPenalty q c ≤ -20 := by
  simp only [msgPenalty]
  rw [if_pos hname]
  have hget : (argGet c.args "recipient").getD (.s "") = vr := by
    rw [hargs]; rfl
  rw [hget, if_pos hfill]
  split_ifs <;> norm_num

theorem kwBonus_bounds (q : Str) (n : String) :
    0 ≤ (if kwHit q n then (4 : ℤ) else 0) ∧
    (if kwHit q n then (4 : ℤ) else 0) ≤ 4 := by
  split_ifs <;> norm_num

theorem argSum_nonneg (q : Str) (args : List (String × PyVal)) :
    0 ≤ (args.map (fun p => scoreArgBonus q p.2)).sum := by
  apply List.sum_nonneg
  intro x hx
  obtain ⟨p, _, rfl⟩ := List.mem_map.mp hx
  exact scoreArgBonus_nonneg q p.2

theorem callScore_nonneg (q : Str) (c : ToolCall)
    (h : c.name ≠ "send_message") : 0 ≤ callScore q c := by
  unfold callScore
  have h1 := (kwBonus_bounds q c.name).1
  have h2 := argSum_nonneg q c.args
  have h3 := msgPenalty_zero q c h
  omega

theorem callScore_filler_le (q : Str) (c : ToolCall) (vr vm : PyVal)
    (hname : c.name = "send_message")
    (hargs : c.args = [("recipient", vr), ("message", vm)])
    (hfill : strLower (stripBy isWsC (pyStr vr)) ∈ fillerWords) :
    callScore q c ≤ -10 := by
  unfold callScore
  have h1 := (kwBonus_bounds q c.name).2
  have h2 : (c.args.map (fun p => scoreArgBonus q p.2)).sum ≤ 6 := by
    rw [hargs]
    have b1 := scoreArgBonus_le3 q vr
    have b2 := scoreArgBonus_le3 q vm
    simp only [List.map_cons, List.map_nil, List.sum_cons, List.sum_nil]
    omega
  have h3 := msgPenalty_filler q c vr vm hname hargs hfill
  omega

theorem distinctCountGo_le (names : List String) :
    ∀ seen, distinctCountGo seen names ≤ names.length := by
  induction names with
  | nil => intro seen; simp [distinctCountGo]
  | cons n rest ih =>
      intro seen
      unfold distinctCountGo
      split
      · exact le_trans (ih seen) (by simp)
      · have := ih (n :: seen)
        simp only [List.length_cons]
        omega

theorem distinctCount_pos (names : List String) (h : names ≠ []) :
    1 ≤ distinctCount names := by
  cases names with
  | nil => exact absurd rfl h
  | cons n rest =>
      unfold distinctCount distinctCountGo
      split
      · next hmem => simp at hmem
      · omega

theorem distinctCount_le (names : List String) :
    distinctCount names ≤ names.length := distinctCountGo_le names []

/-- Upper bound on the score of a single-call set consisting of one
filler-recipient message call with exactly the standard two arguments. -/
theorem cscore_filler_le (tools : List Tool) (q : Str) (expected : Nat)
    (c : ToolCall) (vr vm : PyVal)
    (hname : c.name = "send_message")
    (hargs : c.args = [("recipient", vr), ("message", vm)])
    (hfill : strLower (stripBy isWsC (pyStr (vr))) ∈ fillerWords) :
    _candidate_score [c] tools q expected ≤
      105 + (if expected ≠ 0 then -6 * |(1 : ℤ) - (expected : ℤ)| else 0) := by
  unfold _candidate_score
  simp only [List.isEmpty_cons, Bool.false_eq_true, if_false,
    List.length_cons, List.length_nil, List.map_cons, List.map_nil,
    List.sum_cons, List.sum_nil]
  have hbase : (if _validate [c] tools then (100 : ℤ) else -100) ≤ 100 := by
    split_ifs <;> norm_num
  have hcall := callScore_filler_le (strLower q) c vr vm hname hargs hfill
  have hdup : distinctCount [c.name] = 1 := rfl
  rw [hdup]
  push_cast
  omega

/-- Lower bound on the score of any valid non-empty set with no message
calls. -/
theorem cscore_alt_ge (tools : List Tool) (q : Str) (expected : Nat)
    (alt : List ToolCall)
    (hval : _validate alt tools = true) (hne : alt ≠ [])
    (hnomsg : ∀ c ∈ alt, c.name ≠ "send_message") :
    110 + 5 * (alt.length : ℤ) +
      (if expected ≠ 0 then -6 * |(1 : ℤ) - (expected : ℤ)| else 0) ≤
      _candidate_score alt tools q expected := by
  unfold _candidate_score
  have hE : alt.isEmpty = false := by
    cases alt with
    | nil => exact absurd rfl hne
    | cons a r => rfl
  simp only [hE, Bool.false_eq_true, if_false, hval, if_true]
  have hL : 1 ≤ (alt.length : ℤ) := by
    cases alt with
    | nil => exact absurd rfl hne
    | cons a r =>
        simp only [List.length_cons]
        omega
  have hsum : 0 ≤ (alt.map (callScore (strLower q))).sum := by
    apply List.sum_nonneg
    intro x hx
    obtain ⟨c, hc, rfl⟩ := List.mem_map.mp hx
    exact callScore_nonneg (strLower q) c (hnomsg c hc)
  have hdup1 : 1 ≤ (distinctCount (alt.map (·.name)) : ℤ) := by
    have := distinctCount_pos (alt.map (·.name)) (by
      cases alt with
      | nil => exact absurd rfl hne
      | cons a r => simp)
    exact_mod_cast this
  have hterm :
      (if expected ≠ 0 then -6 * |(1 : ℤ) - (expected : ℤ)| else 0) -
        6 * ((alt.length : ℤ) - 1) ≤
      (if expected ≠ 0 then
        -6 * |(alt.length : ℤ) - (expected : ℤ)| else 0) := by
    split_ifs with he
    · have habs : |(alt.length : ℤ) - (expected : ℤ)| ≤
          ((alt.length : ℤ) - 1) + |(1 : ℤ) - (expected : ℤ)| := by
        have h1 : (alt.length : ℤ) - (expected : ℤ) =
            ((alt.length : ℤ) - 1) + ((1 : ℤ) - (expected : ℤ)) := by ring
        rw [h1]
        calc |((alt.length : ℤ) - 1) + ((1 : ℤ) - (expected : ℤ))| ≤
              |(alt.length : ℤ) - 1| + |(1 : ℤ) - (expected : ℤ)| :=
              abs_add _ _
          _ = ((alt.length : ℤ) - 1) + |(1 : ℤ) - (expected : ℤ)| := by
              rw [abs_of_nonneg (by omega)]
      omega
    · omega
  push_cast at hterm
  omega

/-! ## Selection-fold lemmas -/

theorem pickBestGo_step (tools : List Tool) (q : Str) (expected : Nat)
    (acc : String × List ToolCall × Int) (name : String)
    (calls : List ToolCall) (rest : List (String × List ToolCall)) :
    pickBestGo tools q expected acc ((name, calls) :: rest) =
      (if effScore tools q expected name calls > acc.2.2 then
        pickBestGo tools q expected
          (name, calls, effScore tools q expected name calls) rest
      else pickBestGo tools q expected acc rest) := rfl

theorem pickBestGo_ge_acc (tools : List Tool) (q : Str) (expected : Nat)
    (cands : List (String × List ToolCall)) :
    ∀ acc, acc.2.2 ≤ (pickBestGo tools q expected acc cands).2.2 := by
  induction cands with
  | nil => intro acc; exact le_refl _
  | cons p rest ih =>
      intro acc
      obtain ⟨name, calls⟩ := p
      rw [pickBestGo_step]
      by_cases hgt : effScore tools q expected name calls > acc.2.2
      · rw [if_pos hgt]
        exact le_trans (le_of_lt hgt)
          (ih (name, calls, effScore tools q expected name calls))
      · rw [if_neg hgt]
        exact ih acc

theorem pickBestGo_ge_mem (tools : List Tool) (q : Str) (expected : Nat)
    (cands : List (String × List ToolCall)) :
    ∀ acc n c, (n, c) ∈ cands →
      effScore tools q expected n c ≤
        (pickBestGo tools q expected acc cands).2.2 := by
  induction cands with
  | nil => intro acc n c hc; cases hc
  | cons p rest ih =>
      intro acc n c hc
      obtain ⟨name, calls⟩ := p
      rw [pickBestGo_step]
      rcases List.mem_cons.mp hc with heq | hmem
      · injection heq with h1 h2
        subst h1
        subst h2
        by_cases hgt : effScore tools q expected n c > acc.2.2
        · rw [if_pos hgt]
          exact pickBestGo_ge_acc tools q expected rest _
        · rw [if_neg hgt]
          push_neg at hgt
          exact le_trans hgt (pickBestGo_ge_acc tools q expected rest acc)
      · by_cases hgt : effScore tools q expected name calls > acc.2.2
        · rw [if_pos hgt]
          exact ih _ n c hmem
        · rw [if_neg hgt]
          exact ih acc n c hmem

theorem pickBestGo_result (tools : List Tool) (q : Str) (expected : Nat)
    (cands : List (String × List ToolCall)) :
    ∀ acc, pickBestGo tools q expected acc cands = acc ∨
      ∃ p ∈ cands, pickBestGo tools q expected acc cands =
        (p.1, p.2, effScore tools q expected p.1 p.2) := by
  induction cands with
  | nil => intro acc; left; rfl
  | cons p rest ih =>
      intro acc
      obtain ⟨name, calls⟩ := p
      rw [pickBestGo_step]
      by_cases hgt : effScore tools q expected name calls > acc.2.2
      · rw [if_pos hgt]
        right
        rcases ih (name, calls, effScore tools q expected name calls) with
          heq | ⟨p', hp', heq⟩
        · exact ⟨(name, calls), List.mem_cons_self _ _, heq⟩
        · exact ⟨p', List.mem_cons_of_mem _ hp', heq⟩
      · rw [if_neg hgt]
        rcases ih acc with heq | ⟨p', hp', heq⟩
        · left; exact heq
        · right; exact ⟨p', List.mem_cons_of_mem _ hp', heq⟩

/-- C7 (amended): a pool candidate set consisting of a single
`send_message` call whose arguments are exactly recipient and message with
a filler-word recipient is never the selected plan while the pool contains
another valid non-empty candidate set free of `send_message` calls. -/
theorem C7_filler_never_selected (tools : List Tool) (q : Str)
    (expected : Nat) (det localCalls : List ToolCall) (dv lv : Bool)
    (lc : ℚ) (fc : ToolCall) (vr vm : PyVal) (nf na : String)
    (alt : List ToolCall)
    (hname : fc.name = "send_message")
    (hargs : fc.args = [("recipient", vr), ("message", vm)])
    (hfill : strLower (stripBy isWsC (pyStr vr)) ∈ fillerWords)
    (hfc : (nf, [fc]) ∈ buildCandidates det localCalls dv lv)
    (hna : (na, alt) ∈ buildCandidates det localCalls dv lv)
    (hval : _validate alt tools = true) (hane : alt ≠ [])
    (hnomsg : ∀ c ∈ alt, c.name ≠ "send_message") :
    (arbitrate tools q expected det dv localCalls lv lc).calls ≠ [fc] := by
  intro hcontra
  have hcne : (buildCandidates det localCalls dv lv).isEmpty = false := by
    cases hbc : buildCandidates det localCalls dv lv with
    | nil => rw [hbc] at hna; cases hna
    | cons a r => rfl
  have hcalls : (arbitrate tools q expected det dv localCalls lv lc).calls =
      (pickBestGo tools q expected scoreInit
        (buildCandidates det localCalls dv lv)).2.1 := by
    simp only [arbitrate, hcne, Bool.false_eq_true, if_false]
  rw [hcalls] at hcontra
  set E1 := (if expected ≠ 0 then -6 * |(1 : ℤ) - (expected : ℤ)| else 0)
    with hE1
  have hflow : ∀ n' : String, effScore tools q expected n' [fc] ≤ 106 + E1 := by
    intro n'
    unfold effScore
    have h1 := cscore_filler_le tools q expected fc vr vm hname hargs hfill
    have h2 : (if n' = "det" then (1 : ℤ) else 0) ≤ 1 := by
      split_ifs <;> norm_num
    rw [← hE1] at h1
    omega
  have haltlow : 115 + E1 ≤ effScore tools q expected na alt := by
    unfold effScore
    have h1 := cscore_alt_ge tools q expected alt hval hane hnomsg
    have h2 : (0 : ℤ) ≤ (if na = "det" then (1 : ℤ) else 0) := by
      split_ifs <;> norm_num
    have hL : 1 ≤ (alt.length : ℤ) := by
      cases alt with
      | nil => exact absurd rfl hane
      | cons a r =>
          simp only [List.length_cons]
          omega
    rw [← hE1] at h1
    omega
  have hscore := pickBestGo_ge_mem tools q expected
    (buildCandidates det localCalls dv lv) scoreInit na alt hna
  rcases pickBestGo_result tools q expected
      (buildCandidates det localCalls dv lv) scoreInit with heq |
      ⟨p, hp, heq⟩
  · rw [heq] at hcontra
    cases hcontra
  · rw [heq] at hcontra hscore
    simp only at hcontra hscore
    rw [hcontra] at hscore
    have hf := hflow p.1
    omega

def q7 : Str :=
  String.toList
    "text the saying hi, what is the weather in San Francisco, and play"

def msgs7 : List Msg := [⟨"user", q7⟩]

def fillerMsgCall : ToolCall :=
  mkCall "send_message" [("recipient", PyVal.s "the"), ("message", PyVal.s "hi")]

def locRes7 : LocalCactus := ⟨[weatherCallSF], 7, 0⟩

/-- Counterexample to C7 as stated: on this request the pool contains the
valid, non-empty, message-free local candidate set, yet arbitration selects
the two-call deterministic set whose first call is a `send_message` with
recipient `"the"`. -/
theorem C7_filler_selected_counterexample :
    partsOf msgs7 = some [String.toList "text the saying hi",
      String.toList "what is the weather in San Francisco",
      String.toList "play"] ∧
    detCallsP [String.toList "text the saying hi",
        String.toList "what is the weather in San Francisco",
        String.toList "play"] (sevenTools.map (·.name)) =
      [fillerMsgCall, weatherCallSF] ∧
    buildCandidates [fillerMsgCall, weatherCallSF] [weatherCallSF] true
        true =
      [("det", [fillerMsgCall, weatherCallSF]),
       ("local", [weatherCallSF]),
       ("merged", [fillerMsgCall, weatherCallSF])] ∧
    _validate [weatherCallSF] sevenTools = true ∧
    weatherCallSF.name ≠ "send_message" ∧
    (generate_hybrid msgs7 sevenTools (.ok locRes7) (.ok 1) 5).toOption.map
      (·.function_calls) = some [fillerMsgCall, weatherCallSF] :=
  ⟨rfl, rfl, rfl, rfl, by decide, rfl⟩

/-- Witness for the amended C7 at a concrete pool. -/
theorem C7_filler_never_selected_witness :
    (arbitrate sevenTools q7 1 [fillerMsgCall] true [weatherCallSF] true
      0).calls ≠ [fillerMsgCall] := by
  have hbc : buildCandidates [fillerMsgCall] [weatherCallSF] true true =
      [("det", [fillerMsgCall]), ("local", [weatherCallSF]),
       ("merged", [fillerMsgCall, weatherCallSF])] := rfl
  refine C7_filler_never_selected sevenTools q7 1 [fillerMsgCall]
    [weatherCallSF] true true 0 fillerMsgCall (PyVal.s "the")
    (PyVal.s "hi") "det" "local" [weatherCallSF] rfl rfl (by decide)
    ?_ ?_ rfl (by simp) ?_
  · rw [hbc]; exact List.mem_cons_self _ _
  · rw [hbc]
    exact List.mem_cons_of_mem _ (List.mem_cons_self _ _)
  · intro c hc
    have : c = weatherCallSF := by simpa using hc
    rw [this]
    decide

/-! ## Whitespace-normal-form lemmas (the `_clean_span` output shape) -/

theorem tailNorm_tail {c : Char} {r : Str} (h : tailNorm (c :: r) = true) :
    tailNorm r = true := by
  cases r with
  | nil => rfl
  | cons d rr =>
      simp only [tailNorm, Bool.and_eq_true] at h
      exact h.2

theorem noDoubleWs_tail {c : Char} {r : Str}
    (h : noDoubleWs (c :: r) = true) : noDoubleWs r = true := by
  cases r with
  | nil => rfl
  | cons d rr =>
      simp only [noDoubleWs, Bool.and_eq_true] at h
      exact h.2

theorem tailNorm_noDoubleWs : ∀ {l : Str}, tailNorm l = true →
    noDoubleWs l = true
  | [], _ => rfl
  | [_], _ => rfl
  | _ :: _ :: _, h => by
      simp only [tailNorm, Bool.and_eq_true] at h
      simp only [noDoubleWs, Bool.and_eq_true]
      exact ⟨h.1, tailNorm_noDoubleWs h.2⟩

theorem tailNorm_suffix {l s : Str} (hsuf : l <:+ s)
    (h : tailNorm s = true) : tailNorm l = true := by
  obtain ⟨u, rfl⟩ := hsuf
  revert h
  induction u with
  | nil => exact fun h => h
  | cons a u ih =>
      intro h
      exact ih (tailNorm_tail h)

theorem noDoubleWs_suffix {l s : Str} (hsuf : l <:+ s)
    (h : noDoubleWs s = true) : noDoubleWs l = true := by
  obtain ⟨u, rfl⟩ := hsuf
  revert h
  induction u with
  | nil => exact fun h => h
  | cons a u ih =>
      intro h
      exact ih (noDoubleWs_tail h)

theorem tailNorm_dropWhile (p : Char → Bool) :
    ∀ {l : Str}, tailNorm l = true → tailNorm (l.dropWhile p) = true
  | [], h => h
  | c :: r, h => by
      rw [List.dropWhile_cons]
      split
      · exact tailNorm_dropWhile p (tailNorm_tail h)
      · exact h

theorem noDoubleWs_dropWhile (p : Char → Bool) :
    ∀ {l : Str}, noDoubleWs l = true → noDoubleWs (l.dropWhile p) = true
  | [], h => h
  | c :: r, h => by
      rw [List.dropWhile_cons]
      split
      · exact noDoubleWs_dropWhile p (noDoubleWs_tail h)
      · exact h

theorem dropWhile_head_not (p : Char → Bool) :
    ∀ {l : Str} {c : Char}, (l.dropWhile p).head? = some c → p c = false
  | [], _, h => by cases h
  | a :: r, c, h => by
      rw [List.dropWhile_cons] at h
      by_cases hp : p a
      · rw [if_pos hp] at h
        exact dropWhile_head_not p h
      · rw [if_neg hp] at h
        simp only [List.head?_cons] at h
        injection h with h1
        subst h1
        simpa using hp

theorem mem_of_mem_dropWhile (p : Char → Bool) :
    ∀ {l : Str} {x : Char}, x ∈ l.dropWhile p → x ∈ l
  | [], _, h => h
  | a :: r, x, h => by
      rw [List.dropWhile_cons] at h
      by_cases hp : p a
      · rw [if_pos hp] at h
        exact List.mem_cons_of_mem _ (mem_of_mem_dropWhile p h)
      · rw [if_neg hp] at h
        exact h

theorem dropTrailing_cons (p : Char → Bool) (c : Char) (l : Str) :
    dropTrailing p (c :: l) =
      if (dropTrailing p l).isEmpty && p c then []
      else c :: dropTrailing p l := rfl

theorem mem_of_mem_dropTrailing (p : Char → Bool) :
    ∀ {l : Str} {x : Char}, x ∈ dropTrailing p l → x ∈ l
  | [], _, h => h
  | c :: l, x, h => by
      rw [dropTrailing_cons] at h
      split at h
      · cases h
      · rcases List.mem_cons.mp h with rfl | h'
        · exact List.mem_cons_self _ _
        · exact List.mem_cons_of_mem _ (mem_of_mem_dropTrailing p h')

theorem dropTrailing_tailNorm (p : Char → Bool) :
    ∀ {l : Str}, (∀ c ∈ l, isWsC c = true → p c = true) →
      noDoubleWs l = true →
      tailNorm (dropTrailing p l) = true ∧
        (dropTrailing p l ≠ [] → (dropTrailing p l).head? = l.head?)
  | [], _, _ => ⟨rfl, fun h => absurd rfl h⟩
  | c :: l, hcov, hnd => by
      have ih := dropTrailing_tailNorm p
        (fun d hd hw => hcov d (List.mem_cons_of_mem _ hd) hw)
        (noDoubleWs_tail hnd)
      rw [dropTrailing_cons]
      by_cases hcond : ((dropTrailing p l).isEmpty && p c) = true
      · rw [if_pos hcond]
        exact ⟨rfl, fun h => absurd rfl h⟩
      · rw [if_neg hcond]
        refine ⟨?_, fun _ => rfl⟩
        cases hdl : dropTrailing p l with
        | nil =>
            rw [hdl] at hcond
            simp only [List.isEmpty_nil, Bool.true_and] at hcond
            have hpc : p c = false := by
              cases hpc' : p c
              · rfl
              · exact absurd hpc' hcond
            have hwc : isWsC c = false := by
              cases hw : isWsC c
              · rfl
              · have := hcov c (List.mem_cons_self _ _) hw
                rw [this] at hpc
                cases hpc
            simpa [tailNorm] using hwc
        | cons e tl =>
            have hhead := ih.2 (by simp [hdl])
            rw [hdl] at hhead
            cases l with
            | nil =>
                have : dropTrailing p ([] : Str) = [] := rfl
                rw [this] at hdl
                cases hdl
            | cons d rr =>
                simp only [List.head?_cons] at hhead
                injection hhead with he
                subst he
                simp only [tailNorm, Bool.and_eq_true]
                constructor
                · simp only [noDoubleWs, Bool.and_eq_true] at hnd
                  exact hnd.1
                · have h1 := ih.1
                  rw [hdl] at h1
                  exact h1

theorem allWsSp_of_sub {l l' : Str} (hsub : ∀ c ∈ l', c ∈ l)
    (h : allWsSp l = true) : allWsSp l' = true := by
  rw [allWsSp, List.all_eq_true] at h ⊢
  exact fun c hc => h c (hsub c hc)

theorem headNonWs_of_head {l : Str}
    (h : ∀ c, l.head? = some c → isWsC c = false) : headNonWs l = true := by
  cases l with
  | nil => rfl
  | cons c r =>
      have := h c rfl
      simpa [headNonWs] using this

theorem collapseWs_head : ∀ (r : Str) (c : Char),
    ∃ tl, collapseWs (c :: r) = (if isWsC c then ' ' else c) :: tl
  | [], c => by
      by_cases h : isWsC c <;> exact ⟨[], by simp [collapseWs, h]⟩
  | c2 :: rr, c => by
      by_cases h1 : isWsC c
      · by_cases h2 : isWsC c2
        · obtain ⟨tl, htl⟩ := collapseWs_head rr c2
          refine ⟨tl, ?_⟩
          have he : collapseWs (c :: c2 :: rr) = collapseWs (c2 :: rr) := by
            simp [collapseWs, h1, h2]
          rw [he, htl]
          simp [h1, h2]
        · refine ⟨collapseWs (c2 :: rr), ?_⟩
          simp [collapseWs, h1, h2]
      · refine ⟨collapseWs (c2 :: rr), ?_⟩
        simp [collapseWs, h1]

theorem collapseWs_allWsSp : ∀ (t : Str), allWsSp (collapseWs t) = true
  | [] => rfl
  | [c] => by
      by_cases h : isWsC c <;> simp [collapseWs, h, allWsSp]
  | c1 :: c2 :: rest => by
      have ih := collapseWs_allWsSp (c2 :: rest)
      simp only [collapseWs]
      by_cases h1 : isWsC c1
      · by_cases h2 : isWsC c2
        · rw [if_pos h1, if_pos h2]
          exact ih
        · rw [if_pos h1, if_neg h2]
          simp only [allWsSp, List.all_cons, Bool.and_eq_true] at ih ⊢
          exact ⟨by simp, ih⟩
      · rw [if_neg h1]
        simp only [allWsSp, List.all_cons, Bool.and_eq_true] at ih ⊢
        exact ⟨by simp [h1], ih⟩

theorem collapseWs_noDoubleWs : ∀ (t : Str),
    noDoubleWs (collapseWs t) = true
  | [] => rfl
  | [c] => by
      by_cases h : isWsC c <;> simp [collapseWs, h, noDoubleWs]
  | c1 :: c2 :: rest => by
      have ih := collapseWs_noDoubleWs (c2 :: rest)
      obtain ⟨tl, htl⟩ := collapseWs_head rest c2
      simp only [collapseWs]
      by_cases h1 : isWsC c1
      · by_cases h2 : isWsC c2
        · rw [if_pos h1, if_pos h2]
          exact ih
        · rw [if_pos h1, if_neg h2]
          rw [htl] at ih ⊢
          rw [if_neg h2] at ih ⊢
          simp only [noDoubleWs, Bool.and_eq_true]
          exact ⟨by simp [h2], ih⟩
      · rw [if_neg h1]
        rw [htl] at ih ⊢
        simp only [noDoubleWs, Bool.and_eq_true]
        exact ⟨by simp [h1], ih⟩

/-- The output of `_clean_span` is always in whitespace normal form. -/
theorem cleanSpan_wsNorm (t : Str) : wsNormB (cleanSpan t) = true := by
  have hAll : allWsSp (collapseWs t) = true := collapseWs_allWsSp t
  have hND : noDoubleWs (collapseWs t) = true := collapseWs_noDoubleWs t
  have hND1 : noDoubleWs ((collapseWs t).dropWhile isWsC) = true :=
    noDoubleWs_dropWhile _ hND
  have hv := dropTrailing_tailNorm isWsC (fun c _ h => h) hND1
  have hvt1 : tailNorm
      ((stripBy isWsC (collapseWs t)).dropWhile isStripC) = true :=
    tailNorm_dropWhile _ hv.1
  have hND2 := tailNorm_noDoubleWs hvt1
  have hcov : ∀ c ∈ (stripBy isWsC (collapseWs t)).dropWhile isStripC,
      isWsC c = true → isStripC c = true := by
    intro c _ hw
    simp [isStripC, hw]
  have hw := dropTrailing_tailNorm isStripC hcov hND2
  have hwt : tailNorm (cleanSpan t) = true := hw.1
  have hmemw : ∀ c ∈ cleanSpan t, c ∈ collapseWs t := by
    intro c hc
    have hc1 : c ∈ (stripBy isWsC (collapseWs t)).dropWhile isStripC :=
      mem_of_mem_dropTrailing isStripC hc
    have hc2 : c ∈ stripBy isWsC (collapseWs t) :=
      mem_of_mem_dropWhile isStripC hc1
    have hc3 : c ∈ (collapseWs t).dropWhile isWsC :=
      mem_of_mem_dropTrailing isWsC hc2
    exact mem_of_mem_dropWhile isWsC hc3
  have hhead : headNonWs (cleanSpan t) = true := by
    refine headNonWs_of_head ?_
    intro c hc
    have hne : cleanSpan t ≠ [] := fun h0 => by rw [h0] at hc; cases hc
    have hkeep := hw.2 hne
    have hc2 : ((stripBy isWsC (collapseWs t)).dropWhile isStripC).head? =
        some c := by
      rw [← hkeep]
      exact hc
    have hstrip : isStripC c = false := dropWhile_head_not isStripC hc2
    cases hwsc : isWsC c
    · rfl
    · exfalso
      have hsc : isStripC c = true := by simp [isStripC, hwsc]
      rw [hsc] at hstrip
      cases hstrip
  have hAllw : allWsSp (cleanSpan t) = true := allWsSp_of_sub hmemw hAll
  simp only [wsNormB]
  rw [hhead, hAllw, hwt]
  rfl

/-! ## First-outcome structure of the anchored rewrite matchers -/

theorem bindM_eval {α β : Type} (m : M α) (f : α → M β) (st : MSt) :
    (m >>= f) st = (m st).flatMap (fun p => f p.1 p.2) := rfl

theorem flatMapPure {α β : Type} (l : List α) (f : α → β) :
    (l.flatMap fun x => [f x]) = l.map f := by
  induction l with
  | nil => rfl
  | cons a t ih =>
      simp only [List.flatMap_cons, List.map_cons, List.singleton_append, ih]

theorem litCI_shape : ∀ (w : Str) (st : MSt),
    litCI w st = [] ∨
      ∃ st', litCI w st = [((), st')] ∧ st'.rest <:+ st.rest
  | [], st => Or.inr ⟨st, rfl, List.suffix_refl _⟩
  | c :: cs, st => by
      have he : litCI (c :: cs) st =
          (takeC (fun d => lowerC d = lowerC c) st).flatMap
            (fun q => litCI cs q.2) := rfl
      rcases hr : st.rest with _ | ⟨d, r⟩
      · left
        rw [he]
        have ht : takeC (fun d => lowerC d = lowerC c) st = [] := by
          unfold takeC
          rw [hr]
        rw [ht]
        rfl
      · by_cases hd : lowerC d = lowerC c
        · have ht : takeC (fun x => lowerC x = lowerC c) st =
              [(d, ⟨some d, r⟩)] := by
            unfold takeC
            rw [hr]
            simp [hd]
          rw [he, ht]
          have he2 : ([(d, (⟨some d, r⟩ : MSt))].flatMap
              (fun q => litCI cs q.2)) = litCI cs ⟨some d, r⟩ := by
            simp
          rw [he2]
          rcases litCI_shape cs ⟨some d, r⟩ with h0 | ⟨st', heq, hsuf⟩
          · exact Or.inl h0
          · exact Or.inr ⟨st', heq, hsuf.trans (List.suffix_cons d r)⟩
        · left
          have ht : takeC (fun x => lowerC x = lowerC c) st = [] := by
            unfold takeC
            rw [hr]
            simp [hd]
          rw [he, ht]
          rfl

theorem seqSplits_reverse_head : ∀ (l : Str) (p : Option Char), l ≠ [] →
    ∃ lc, ((seqSplits p l).reverse).head? = some (l, ⟨some lc, []⟩)
  | [], _, h => absurd rfl h
  | [c], _, _ => ⟨c, rfl⟩
  | c :: d :: rr, p, _ => by
      obtain ⟨lc, hlc⟩ := seqSplits_reverse_head (d :: rr) (some c) (by simp)
      refine ⟨lc, ?_⟩
      have he : seqSplits p (c :: d :: rr) =
          ([c], ⟨some c, d :: rr⟩) ::
            (seqSplits (some c) (d :: rr)).map
              (fun q => (c :: q.1, q.2)) := rfl
      rw [he, List.reverse_cons, ← List.map_reverse]
      cases hA : (seqSplits (some c) (d :: rr)).reverse with
      | nil =>
          rw [hA] at hlc
          cases hlc
      | cons q qs =>
          rw [hA] at hlc
          simp only [List.head?_cons] at hlc
          injection hlc with h1
          subst h1
          simp

theorem classPlus_head (p : Char → Bool) (st : MSt) {u : Str × MSt}
    (h : (classPlus p st).head? = some u) :
    u.2.rest = st.rest.dropWhile p := by
  cases hl : st.rest.takeWhile p with
  | nil =>
      have hcp : classPlus p st = [] := by
        unfold classPlus
        rw [hl]
        rfl
      rw [hcp] at h
      cases h
  | cons a l' =>
      obtain ⟨lc, hlc⟩ := seqSplits_reverse_head (a :: l') st.prev (by simp)
      have hcp : classPlus p st =
          ((seqSplits st.prev (a :: l')).map
            (fun q => (q.1,
              (⟨q.2.prev, q.2.rest ++ st.rest.dropWhile p⟩ : MSt)))).reverse := by
        unfold classPlus
        rw [hl]
      rw [hcp, ← List.map_reverse] at h
      cases hA : (seqSplits st.prev (a :: l')).reverse with
      | nil =>
          rw [hA] at hlc
          cases hlc
      | cons q qs =>
          rw [hA] at h hlc
          simp only [List.head?_cons] at hlc
          injection hlc with h1
          subst h1
          simp only [List.map_cons, List.head?_cons] at h
          injection h with h2
          subst h2
          rfl

theorem wsPlus_head {st : MSt} {u : Unit × MSt}
    (h : (wsPlus st).head? = some u) :
    u.2.rest = st.rest.dropWhile isWsC := by
  have he : wsPlus st =
      (classPlus isWsC st).flatMap (fun q => [((), q.2)]) := rfl
  rw [he, flatMapPure] at h
  cases hA : classPlus isWsC st with
  | nil =>
      rw [hA] at h
      cases h
  | cons q qs =>
      rw [hA] at h
      simp only [List.map_cons, List.head?_cons] at h
      injection h with h1
      have hq : (classPlus isWsC st).head? = some q := by
        rw [hA]
        rfl
      have hr := classPlus_head isWsC st hq
      rw [← h1]
      exact hr

theorem wsPlus_nil {st : MSt}
    (h : ∀ c, st.rest.head? = some c → isWsC c = false) : wsPlus st = [] := by
  have htw : st.rest.takeWhile isWsC = [] := by
    cases hr : st.rest with
    | nil => rfl
    | cons c r =>
        rw [List.takeWhile_cons]
        have hc := h c (by rw [hr]; rfl)
        simp [hc]
  have hcp : classPlus isWsC st = [] := by
    unfold classPlus
    rw [htw]
    rfl
  have he : wsPlus st =
      (classPlus isWsC st).flatMap (fun q => [((), q.2)]) := rfl
  rw [he, hcp]
  rfl

/-- A matcher starting with `\s+` can only begin at whitespace. -/
theorem wsFirst_nil (k : M Unit) (p : Option Char) (c : Char) (r : Str)
    (hc : isWsC c = false) : (do wsPlus; k) (⟨p, c :: r⟩ : MSt) = [] := by
  have he : (do wsPlus; k) (⟨p, c :: r⟩ : MSt) =
      (wsPlus ⟨p, c :: r⟩).flatMap (fun q => k q.2) := rfl
  have hz : wsPlus (⟨p, c :: r⟩ : MSt) = [] := by
    refine wsPlus_nil ?_
    intro d hd
    simp only [List.head?_cons] at hd
    injection hd with h1
    subst h1
    exact hc
  rw [he, hz]
  rfl

/-- `re.sub` of an anchored literal-then-`\s+` prefix preserves whitespace
normal form. -/
theorem subLeading_litCI_wsPlus (w : Str) {s : Str} (h : wsNormB s = true) :
    wsNormB (subLeading (do litCI w; wsPlus) s) = true := by
  unfold subLeading
  cases hms : matchStart (do litCI w; wsPlus) s with
  | none => exact h
  | some au =>
      obtain ⟨a, st⟩ := au
      show wsNormB st.rest = true
      have hms' : (((litCI w : M Unit) >>=
          fun _ => wsPlus) ⟨none, s⟩).head? = some (a, st) := hms
      rw [bindM_eval] at hms'
      rcases litCI_shape w ⟨none, s⟩ with hlit | ⟨st1, hlit, hsuf⟩
      · rw [hlit] at hms'
        cases hms'
      · rw [hlit] at hms'
        have he2 : ([((), st1)].flatMap (fun q => wsPlus q.2)) =
            wsPlus st1 := by simp
        rw [he2] at hms'
        have hrest := wsPlus_head hms'
        rw [hrest]
        simp only [wsNormB, Bool.and_eq_true] at h
        obtain ⟨⟨_, ha⟩, ht⟩ := h
        simp only [wsNormB, Bool.and_eq_true]
        refine ⟨⟨?_, ?_⟩, ?_⟩
        · refine headNonWs_of_head (fun c hc => ?_)
          exact dropWhile_head_not isWsC hc
        · refine allWsSp_of_sub (fun c hc => ?_) ha
          have hc1 : c ∈ st1.rest := mem_of_mem_dropWhile isWsC hc
          exact hsuf.subset hc1
        · exact tailNorm_dropWhile isWsC (tailNorm_suffix hsuf ht)

theorem truncAtAux_mem (m : M Unit) :
    ∀ {l : Str} (p : Option Char) {x : Char}, x ∈ truncAtAux m p l → x ∈ l
  | [], _, _, h => h
  | c :: r, p, x, h => by
      have he : truncAtAux m p (c :: r) =
          if (m ⟨p, c :: r⟩).isEmpty then c :: truncAtAux m (some c) r
          else [] := rfl
      rw [he] at h
      split at h
      · rcases List.mem_cons.mp h with rfl | h'
        · exact List.mem_cons_self _ _
        · exact List.mem_cons_of_mem _ (truncAtAux_mem m (some c) h')
      · cases h

theorem truncAtAux_tailNorm (m : M Unit)
    (hm : ∀ (p : Option Char) (c : Char) (r : Str), isWsC c = false →
      m ⟨p, c :: r⟩ = []) :
    ∀ (l : Str) (p : Option Char), tailNorm l = true →
      tailNorm (truncAtAux m p l) = true ∧
        (truncAtAux m p l ≠ [] → (truncAtAux m p l).head? = l.head?)
  | [], _, _ => ⟨rfl, fun h => absurd rfl h⟩
  | c :: r, p, h => by
      have heq : truncAtAux m p (c :: r) =
          if (m ⟨p, c :: r⟩).isEmpty then c :: truncAtAux m (some c) r
          else [] := rfl
      rw [heq]
      by_cases hguard : ((m ⟨p, c :: r⟩).isEmpty : Bool) = true
      · rw [if_pos hguard]
        have ih := truncAtAux_tailNorm m hm r (some c) (tailNorm_tail h)
        refine ⟨?_, fun _ => rfl⟩
        cases r with
        | nil => exact h
        | cons d rr =>
            cases hdr : truncAtAux m (some c) (d :: rr) with
            | nil =>
                have hne : ¬ ((m ⟨some c, d :: rr⟩).isEmpty = true) := by
                  intro hemp
                  have h2 : truncAtAux m (some c) (d :: rr) =
                      d :: truncAtAux m (some d) rr := by
                    have heq2 : truncAtAux m (some c) (d :: rr) =
                        if (m ⟨some c, d :: rr⟩).isEmpty then
                          d :: truncAtAux m (some d) rr
                        else [] := rfl
                    rw [heq2, if_pos hemp]
                  rw [h2] at hdr
                  cases hdr
                have hwd : isWsC d = true := by
                  cases hw : isWsC d
                  · exact absurd (by rw [hm (some c) d rr hw]; rfl) hne
                  · rfl
                simp only [tailNorm, Bool.and_eq_true] at h
                have h1 := h.1
                rw [hwd] at h1
                simp only [Bool.and_true, Bool.not_eq_true'] at h1
                simpa [tailNorm] using h1
            | cons e tl =>
                have hh := ih.2 (by simp [hdr])
                rw [hdr] at hh
                simp only [List.head?_cons] at hh
                injection hh with he
                subst he
                simp only [tailNorm, Bool.and_eq_true]
                refine ⟨?_, ?_⟩
                · simp only [tailNorm, Bool.and_eq_true] at h
                  exact h.1
                · have h1 := ih.1
                  rw [hdr] at h1
                  exact h1
      · rw [if_neg hguard]
        exact ⟨rfl, fun h' => absurd rfl h'⟩

/-- Truncation at a match that must begin with `\s+` preserves whitespace
normal form. -/
theorem truncAt_wsNorm (m : M Unit)
    (hm : ∀ (p : Option Char) (c : Char) (r : Str), isWsC c = false →
      m ⟨p, c :: r⟩ = []) {s : Str}
    (h : wsNormB s = true) : wsNormB (truncAt m s) = true := by
  simp only [wsNormB, Bool.and_eq_true] at h
  obtain ⟨⟨hh, ha⟩, ht⟩ := h
  have hx := truncAtAux_tailNorm m hm s none ht
  simp only [wsNormB, Bool.and_eq_true]
  refine ⟨⟨?_, ?_⟩, hx.1⟩
  · refine headNonWs_of_head (fun c hc => ?_)
    have hne : truncAt m s ≠ [] := fun h0 => by rw [h0] at hc; cases hc
    have hkeep := hx.2 hne
    have hc2 : s.head? = some c := by
      rw [← hkeep]
      exact hc
    cases s with
    | nil => cases hc2
    | cons a r =>
        simp only [List.head?_cons] at hc2
        injection hc2 with h1
        subst h1
        simpa [headNonWs] using hh
  · refine allWsSp_of_sub (fun c hc => ?_) ha
    exact truncAtAux_mem m none hc

/-! ## Time rendering and numeric argument facts -/

theorem digit_digitChar {d : Nat} (h : d < 10) :
    isDigitC (digitChar d) = true := by
  interval_cases d <;> decide

theorem digit_not_ws {c : Char} (h : isDigitC c = true) :
    isWsC c = false := by
  cases hw : isWsC c
  · rfl
  · exfalso
    simp only [isWsC, Bool.or_eq_true, decide_eq_true_eq] at hw
    rcases hw with ((((h1 | h1) | h1) | h1) | h1) | h1 <;>
      (subst h1; exact absurd h (by decide))

theorem natDigitsGo_digits : ∀ (fuel n : Nat),
    (natDigitsGo fuel n).all isDigitC = true
  | 0, _ => rfl
  | fuel + 1, n => by
      simp only [natDigitsGo]
      split
      · next h => simp [digit_digitChar h]
      · next h =>
          rw [List.all_append, natDigitsGo_digits fuel (n / 10)]
          simp [digit_digitChar (Nat.mod_lt n (by norm_num))]

theorem natDigits_digits (n : Nat) : (natDigits n).all isDigitC = true :=
  natDigitsGo_digits (n + 1) n

theorem natDigits_ne_nil (n : Nat) : natDigits n ≠ [] := by
  unfold natDigits natDigitsGo
  split
  · simp
  · simp

theorem pad2_digits (m : Nat) : (pad2 m).all isDigitC = true := by
  unfold pad2
  split
  · rw [List.all_cons, natDigits_digits m]
    decide
  · exact natDigits_digits m

theorem all_nonws_of_digits {l : Str} (h : l.all isDigitC = true) :
    l.all (fun c => !isWsC c) = true := by
  rw [List.all_eq_true] at h ⊢
  intro c hc
  simp [digit_not_ws (h c hc)]

theorem allWsSp_of_nonws {l : Str} (h : l.all (fun c => !isWsC c) = true) :
    allWsSp l = true := by
  rw [allWsSp, List.all_eq_true]
  rw [List.all_eq_true] at h
  intro c hc
  simp only [Bool.or_eq_true]
  exact Or.inl (h c hc)

theorem tailNorm_append_left : ∀ (X : Str) {R : Str},
    X.all (fun c => !isWsC c) = true → tailNorm R = true →
    tailNorm (X ++ R) = true
  | [], _, _, hR => hR
  | c :: X', R, hX, hR => by
      simp only [List.all_cons, Bool.and_eq_true] at hX
      have ih := tailNorm_append_left X' hX.2 hR
      have hcw : isWsC c = false := by
        have h1 := hX.1
        simp only [Bool.not_eq_true'] at h1
        exact h1
      cases hXR : X' ++ R with
      | nil =>
          simp only [List.cons_append, hXR]
          simp [tailNorm, hcw]
      | cons d tl =>
          simp only [List.cons_append, hXR]
          rw [hXR] at ih
          simp only [tailNorm, Bool.and_eq_true]
          exact ⟨by simp [hcw], ih⟩

theorem fmtTime12_wsNorm (h m : Nat) {ap : Char}
    (hap : ap = 'A' ∨ ap = 'P') : wsNormB (fmtTime12 h m ap) = true := by
  have hf : fmtTime12 h m ap =
      (natDigits h ++ (':' :: pad2 m)) ++ (' ' :: ap :: ['M']) := rfl
  have hA := all_nonws_of_digits (natDigits_digits h)
  have hP := all_nonws_of_digits (pad2_digits m)
  have hAB : (natDigits h ++ (':' :: pad2 m)).all
      (fun c => !isWsC c) = true := by
    rw [List.all_append, hA, List.all_cons, hP]
    decide
  have hC : tailNorm (' ' :: ap :: ['M']) = true := by
    rcases hap with rfl | rfl <;> decide
  have hCa : allWsSp (' ' :: ap :: ['M']) = true := by
    rcases hap with rfl | rfl <;> decide
  simp only [wsNormB, Bool.and_eq_true]
  refine ⟨⟨?_, ?_⟩, ?_⟩
  · cases hA0 : natDigits h with
    | nil => exact absurd hA0 (natDigits_ne_nil h)
    | cons c tl =>
        rw [hf, hA0]
        have hd := natDigits_digits h
        rw [hA0, List.all_cons, Bool.and_eq_true] at hd
        have hnw := digit_not_ws hd.1
        simp [headNonWs, hnw]
  · rw [hf]
    simp only [allWsSp, List.all_append, List.all_cons, Bool.and_eq_true]
    refine ⟨⟨?_, ?_, ?_⟩, ?_⟩
    · have h0 := allWsSp_of_nonws hA
      simpa [allWsSp] using h0
    · decide
    · have h0 := allWsSp_of_nonws hP
      simpa [allWsSp] using h0
    · simpa [allWsSp, List.all_cons] using hCa
  · rw [hf]
    exact tailNorm_append_left _ hAB hC

theorem timeAmPmM_ap : MSat (fun r : Nat × Nat × Char =>
    r.2.2 = 'A' ∨ r.2.2 = 'P') timeAmPmM := by
  unfold timeAmPmM
  refine MSat_bind _ _ (fun a1 => ?_)
  refine MSat_bind _ _ (fun a2 => ?_)
  refine MSat_bind _ _ (fun a3 => ?_)
  refine MSat_bind _ _ (fun a4 => ?_)
  refine MSat_bind _ _ (fun a5 => ?_)
  refine MSat_bind _ _ (fun a6 => ?_)
  refine MSat_bind _ _ (fun a7 => ?_)
  refine MSat_bind _ _ (fun a8 => ?_)
  refine MSat_bind _ _ (fun a9 => ?_)
  refine MSat_bind _ _ (fun a10 => ?_)
  refine MSat_pure _ ?_
  by_cases hc : (a5 = 'A' || a5 = 'a') = true
  · rw [if_pos hc]
    exact Or.inl rfl
  · rw [if_neg hc]
    exact Or.inr rfl

theorem wordAmPmM_ap : MSat (fun r : Nat × Char =>
    r.2 = 'A' ∨ r.2 = 'P') wordAmPmM := by
  unfold wordAmPmM
  refine MSat_bind _ _ (fun a1 => ?_)
  refine MSat_bind _ _ (fun a2 => ?_)
  refine MSat_bind _ _ (fun a3 => ?_)
  refine MSat_bind _ _ (fun a4 => ?_)
  refine MSat_bind _ _ (fun a5 => ?_)
  refine MSat_bind _ _ (fun a6 => ?_)
  refine MSat_bind _ _ (fun a7 => ?_)
  refine MSat_bind _ _ (fun a8 => ?_)
  refine MSat_pure _ ?_
  by_cases hc : (a3 = 'A' || a3 = 'a') = true
  · rw [if_pos hc]
    exact Or.inl rfl
  · rw [if_neg hc]
    exact Or.inr rfl

theorem ampm_AP {text : Str} {r : Nat × Nat × Char}
    (h : _parse_ampm_time text = some r) : r.2.2 = 'A' ∨ r.2.2 = 'P' := by
  unfold _parse_ampm_time at h
  cases h1 : searchM timeAmPmM text with
  | some r0 =>
      simp only [h1] at h
      injection h with h2
      subst h2
      have hP := searchM_sat timeAmPmM_ap h1
      exact hP
  | none =>
      simp only [h1] at h
      cases h2 : searchM wordAmPmM text with
      | some p =>
          obtain ⟨hh, ha⟩ := p
          simp only [h2] at h
          injection h with h3
          subst h3
          have hP := searchM_sat wordAmPmM_ap h2
          exact hP
      | none =>
          simp only [h2] at h
          by_cases h3 : hasBounded [String.toList "noon"] text = true
          · rw [if_pos h3] at h
            injection h with h4
            subst h4
            exact Or.inr rfl
          · rw [if_neg h3] at h
            by_cases h5 : hasBounded [String.toList "midnight"] text = true
            · rw [if_pos h5] at h
              injection h with h6
              subst h6
              exact Or.inl rfl
            · rw [if_neg h5] at h
              cases h

theorem alarm_nonneg {text : Str} {r : Int × Int}
    (h : _parse_alarm_args text = some r) : 0 ≤ r.1 ∧ 0 ≤ r.2 := by
  unfold _parse_alarm_args at h
  cases h1 : _parse_ampm_time text with
  | some t =>
      obtain ⟨h0, m0, ap⟩ := t
      simp only [h1] at h
      injection h with h2
      subst h2
      exact ⟨Int.natCast_nonneg _, Int.natCast_nonneg _⟩
  | none =>
      simp only [h1] at h
      cases h2 : searchM time24M text with
      | some p =>
          obtain ⟨hh, mm⟩ := p
          simp only [h2] at h
          injection h with h3
          subst h3
          exact ⟨Int.natCast_nonneg _, Int.natCast_nonneg _⟩
      | none =>
          simp only [h2] at h
          cases h3 : searchM bareHourNumM text with
          | some p =>
              obtain ⟨hh, mm⟩ := p
              simp only [h3] at h
              by_cases h4 : hh ≤ 23
              · rw [if_pos h4] at h
                injection h with h5
                subst h5
                exact ⟨Int.natCast_nonneg _, Int.natCast_nonneg _⟩
              · rw [if_neg h4] at h
                cases h5 : searchM bareHourWordM text with
                | some n =>
                    simp only [h5] at h
                    injection h with h6
                    subst h6
                    exact ⟨Int.natCast_nonneg _, by omega⟩
                | none =>
                    simp only [h5] at h
                    cases h
          | none =>
              simp only [h3] at h
              cases h4 : searchM bareHourWordM text with
              | some n =>
                  simp only [h4] at h
                  injection h with h5
                  subst h5
                  exact ⟨Int.natCast_nonneg _, by omega⟩
              | none =>
                  simp only [h4] at h
                  cases h

theorem minutes_nonneg {text : Str} {n : Int}
    (h : _parse_minutes text = some n) : 0 ≤ n := by
  unfold _parse_minutes at h
  split at h
  · injection h with h1
    subst h1
    exact Int.natCast_nonneg _
  · split at h
    · injection h with h1
      subst h1
      exact Int.natCast_nonneg _
    · split at h
      · injection h with h1
        subst h1
        exact Int.natCast_nonneg _
      · split at h
        · injection h with h1
          subst h1
          exact Int.natCast_nonneg _
        · cases h

theorem reminder_time_norm {text s : Str}
    (h : _parse_reminder_time text = some s) : wsNormB s = true := by
  unfold _parse_reminder_time at h
  cases h1 : _parse_ampm_time text with
  | some t =>
      obtain ⟨h0, m0, ap⟩ := t
      simp only [h1] at h
      injection h with h2
      subst h2
      exact fmtTime12_wsNorm _ _ (ampm_AP h1)
  | none =>
      simp only [h1] at h
      cases h2 : searchM time24M text with
      | some p =>
          obtain ⟨hh, mm⟩ := p
          simp only [h2] at h
          injection h with h3
          subst h3
          refine fmtTime12_wsNorm _ _ ?_
          by_cases hc : hh < 12
          · rw [if_pos hc]
            exact Or.inl rfl
          · rw [if_neg hc]
            exact Or.inr rfl
      | none =>
          simp only [h2] at h
          cases h

/-! ## Every extracted span is in whitespace normal form -/

theorem ext_weather_norm {part s : Str}
    (h : _extract_weather_location part = some s) : wsNormB s = true := by
  unfold _extract_weather_location at h
  rw [Option.map_eq_some'] at h
  obtain ⟨g, hg, h1⟩ := h
  subst h1
  simp only [weatherLocClean]
  exact cleanSpan_wsNorm _

theorem ext_query_norm {part s : Str}
    (h : _extract_search_query part = some s) : wsNormB s = true := by
  unfold _extract_search_query at h
  rw [Option.map_eq_some'] at h
  obtain ⟨g, hg, h1⟩ := h
  subst h1
  simp only [searchQueryClean]
  exact cleanSpan_wsNorm _

theorem ext_body_norm {part s : Str}
    (h : _extract_message_body part = some s) : wsNormB s = true := by
  unfold _extract_message_body at h
  rw [Option.map_eq_some'] at h
  obtain ⟨g, hg, h1⟩ := h
  subst h1
  exact cleanSpan_wsNorm _

theorem recipientLoop_norm (part s : Str) :
    ∀ (ps : List (M Str)), recipientLoop ps part = some s →
      wsNormB s = true := by
  intro ps
  induction ps with
  | nil => intro h; cases h
  | cons p ps ih =>
      intro h
      unfold recipientLoop at h
      cases hm : searchM p part with
      | none =>
          rw [hm] at h
          exact ih h
      | some g =>
          rw [hm] at h
          have h2 : (if (strLower (recipientClean g)) ∈ recipFillers then
              recipientLoop ps part
              else some (cleanSpan (recipientClean g))) = some s := h
          by_cases hf : (strLower (recipientClean g)) ∈ recipFillers
          · rw [if_pos hf] at h2
            exact ih h2
          · rw [if_neg hf] at h2
            rw [Option.some_inj] at h2
            subst h2
            exact cleanSpan_wsNorm _

theorem ext_recipient_norm {part s : Str}
    (h : _extract_message_recipient part = some s) : wsNormB s = true :=
  recipientLoop_norm part s recipientPats h

theorem ext_title_norm {part s : Str}
    (h : _extract_reminder_title part = some s) : wsNormB s = true := by
  unfold _extract_reminder_title at h
  cases h1 : searchM remindTitle1 part with
  | some p =>
      obtain ⟨mode, g⟩ := p
      rw [h1] at h
      rw [Option.some_inj] at h
      subst h
      exact cleanSpan_wsNorm _
  | none =>
      rw [h1] at h
      cases h2 : searchM remindTitle2 part with
      | some g =>
          rw [h2] at h
          rw [Option.some_inj] at h
          subst h
          exact cleanSpan_wsNorm _
      | none =>
          rw [h2] at h
          cases h3 : searchM remindTitle3 part with
          | some p =>
              obtain ⟨mode, g⟩ := p
              rw [h3] at h
              rw [Option.some_inj] at h
              subst h
              exact cleanSpan_wsNorm _
          | none =>
              rw [h3] at h
              cases h4 : searchM remindTitle4 part with
              | some g =>
                  rw [h4] at h
                  rw [Option.some_inj] at h
                  subst h
                  exact cleanSpan_wsNorm _
              | none =>
                  rw [h4] at h
                  cases h

theorem ext_song_norm {part s : Str}
    (h : _extract_song part = some s) : wsNormB s = true := by
  unfold _extract_song at h
  cases h1 : searchM songPlaySomeM part with
  | some g =>
      rw [h1] at h
      rw [Option.some_inj] at h
      subst h
      exact cleanSpan_wsNorm _
  | none =>
      rw [h1] at h
      cases h2 : searchM songListenM part with
      | some g =>
          rw [h2] at h
          rw [Option.some_inj] at h
          subst h
          exact cleanSpan_wsNorm _
      | none =>
          rw [h2] at h
          cases h3 : searchM songPlayM part with
          | some g =>
              rw [h3] at h
              rw [Option.some_inj] at h
              subst h
              simp only [songClean]
              exact cleanSpan_wsNorm _
          | none =>
              rw [h3] at h
              cases h

theorem directFallback_fst {part r : Str}
    (hr : (directFallback part).1 = some r) : wsNormB r = true := by
  unfold directFallback at hr
  cases hm : searchM directTailM part with
  | none =>
      rw [hm] at hr
      cases hr
  | some g =>
      simp only [hm] at hr
      repeat' split at hr
      all_goals try cases hr
      all_goals exact cleanSpan_wsNorm _

theorem directFallback_snd {part b : Str}
    (hb : (directFallback part).2 = some b) : wsNormB b = true := by
  unfold directFallback at hb
  cases hm : searchM directTailM part with
  | none =>
      rw [hm] at hb
      cases hb
  | some g =>
      simp only [hm] at hb
      repeat' split at hb
      all_goals try cases hb
      all_goals exact cleanSpan_wsNorm _

theorem directNamed_fst {part r : Str}
    (hr : (directNamed part).1 = some r) : wsNormB r = true := by
  unfold directNamed at hr
  cases hm : searchM sendNamedM part with
  | none =>
      rw [hm] at hr
      exact directFallback_fst hr
  | some p =>
      obtain ⟨g1, g2⟩ := p
      simp only [hm] at hr
      split at hr
      · injection hr with h1
        subst h1
        refine truncAt_wsNorm _ ?_
          (subLeading_litCI_wsPlus _ (cleanSpan_wsNorm g1))
        intro q c rr hc
        exact wsFirst_nil _ q c rr hc
      · exact directFallback_fst hr

theorem directNamed_snd {part b : Str}
    (hb : (directNamed part).2 = some b) : wsNormB b = true := by
  unfold directNamed at hb
  cases hm : searchM sendNamedM part with
  | none =>
      rw [hm] at hb
      exact directFallback_snd hb
  | some p =>
      obtain ⟨g1, g2⟩ := p
      simp only [hm] at hb
      split at hb
      · injection hb with h1
        subst h1
        exact cleanSpan_wsNorm _
      · exact directFallback_snd hb

theorem direct_fst {part r : Str}
    (hr : (_extract_message_direct part).1 = some r) : wsNormB r = true := by
  unfold _extract_message_direct at hr
  cases hm : searchM sendToM part with
  | none =>
      rw [hm] at hr
      exact directNamed_fst hr
  | some g =>
      simp only [hm] at hr
      split at hr
      · injection hr with h1
        subst h1
        exact cleanSpan_wsNorm _
      · exact directNamed_fst hr

theorem direct_snd {part b : Str}
    (hb : (_extract_message_direct part).2 = some b) : wsNormB b = true := by
  unfold _extract_message_direct at hb
  cases hm : searchM sendToM part with
  | none =>
      rw [hm] at hb
      exact directNamed_snd hb
  | some g =>
      simp only [hm] at hb
      split at hb
      · exact ext_body_norm hb
      · exact directNamed_snd hb

/-! ## Shape of each branch of the per-span dispatcher -/

theorem toList_mk (l : Str) : (String.mk l).toList = l := rfl

theorem argStrOk_mk {t : Str} (hne : t.isEmpty = false)
    (hn : wsNormB t = true) : argStrOk (PyVal.s (String.mk t)) = true := by
  have he : argStrOk (PyVal.s (String.mk t)) =
      (!(String.mk t).toList.isEmpty && wsNormB (String.mk t).toList) := rfl
  rw [he, toList_mk, hne, hn]
  rfl

theorem argNatOk_n {i : Int} (h : 0 ≤ i) : argNatOk (PyVal.n i) = true := by
  show decide (0 ≤ i) = true
  exact decide_eq_true h

theorem mem_of_contains {l : List String} {a : String}
    (h : l.contains a = true) : a ∈ l := by
  simpa using h

theorem callShapeB_music {v : PyVal} (hv : argStrOk v = true) :
    callShapeB (mkCall "play_music" [("song", v)]) = true := by
  simp [callShapeB, shape1B, mkCall, hv]

theorem callShapeB_weather {v : PyVal} (hv : argStrOk v = true) :
    callShapeB (mkCall "get_weather" [("location", v)]) = true := by
  simp [callShapeB, shape1B, mkCall, hv]

theorem callShapeB_timer {v : PyVal} (hv : argNatOk v = true) :
    callShapeB (mkCall "set_timer" [("minutes", v)]) = true := by
  simp [callShapeB, shape1B, mkCall, hv]

theorem callShapeB_contacts {v : PyVal} (hv : argStrOk v = true) :
    callShapeB (mkCall "search_contacts" [("query", v)]) = true := by
  simp [callShapeB, shape1B, mkCall, hv]

theorem callShapeB_alarm {v1 v2 : PyVal} (h1 : argNatOk v1 = true)
    (h2 : argNatOk v2 = true) :
    callShapeB (mkCall "set_alarm" [("hour", v1), ("minute", v2)]) = true := by
  simp [callShapeB, shape2B, mkCall, h1, h2]

theorem callShapeB_reminder {v1 v2 : PyVal} (h1 : argStrOk v1 = true)
    (h2 : argStrOk v2 = true) :
    callShapeB (mkCall "create_reminder"
      [("title", v1), ("time", v2)]) = true := by
  simp [callShapeB, shape2B, mkCall, h1, h2]

theorem callShapeB_send {v1 v2 : PyVal} (h1 : argStrOk v1 = true)
    (h2 : argStrOk v2 = true) :
    callShapeB (mkCall "send_message"
      [("recipient", v1), ("message", v2)]) = true := by
  simp [callShapeB, shape2B, mkCall, h1, h2]

theorem andL {a b : Bool} (h : (a && b) = true) : a = true := by
  rw [Bool.and_eq_true] at h
  exact h.1

theorem andR {a b : Bool} (h : (a && b) = true) : b = true := by
  rw [Bool.and_eq_true] at h
  exact h.2

theorem branchMusic_spec {part low : Str} {avail : List String} {ctx : Ctx}
    {oc : Option ToolCall} {ctx' : Ctx} (hctx : ctxOkB ctx = true)
    (h : branchMusic part low avail ctx = (oc, ctx')) :
    (∀ c, oc = some c → c.name ∈ avail ∧ callShapeB c = true) ∧
    ctxOkB ctx' = true := by
  unfold branchMusic at h
  split at h
  · next hcond =>
      cases hs : _extract_song part with
      | some song =>
          rw [hs] at h
          have h2 : (if !song.isEmpty then
              (some (mkCall "play_music"
                [("song", PyVal.s (String.mk song))]), ctx)
              else (none, ctx)) = (oc, ctx') := h
          split at h2
          · next hne =>
              injection h2 with ho hc'
              subst ho
              subst hc'
              refine ⟨?_, hctx⟩
              intro c hcc
              rw [Option.some_inj] at hcc
              subst hcc
              refine ⟨?_, ?_⟩
              · exact mem_of_contains (andL hcond)
              · exact callShapeB_music (argStrOk_mk
                  (by simpa using hne) (ext_song_norm hs))
          · injection h2 with ho hc'
            subst ho
            subst hc'
            exact ⟨fun c hcc => Option.noConfusion hcc, hctx⟩
      | none =>
          rw [hs] at h
          have h2 : ((none : Option ToolCall), ctx) = (oc, ctx') := h
          injection h2 with ho hc'
          subst ho
          subst hc'
          exact ⟨fun c hcc => Option.noConfusion hcc, hctx⟩
  · injection h with ho hc'
    subst ho
    subst hc'
    exact ⟨fun c hcc => Option.noConfusion hcc, hctx⟩

theorem branchWeather_spec {part low : Str} {avail : List String} {ctx : Ctx}
    {oc : Option ToolCall} {ctx' : Ctx} (hctx : ctxOkB ctx = true)
    (h : branchWeather part low avail ctx = (oc, ctx')) :
    (∀ c, oc = some c → c.name ∈ avail ∧ callShapeB c = true) ∧
    ctxOkB ctx' = true := by
  unfold branchWeather at h
  split at h
  · next hcond =>
      cases hs : _extract_weather_location part with
      | some loc =>
          rw [hs] at h
          have h2 : (if !loc.isEmpty then
              (some (mkCall "get_weather"
                [("location", PyVal.s (String.mk loc))]), ctx)
              else branchMusic part low avail ctx) = (oc, ctx') := h
          split at h2
          · next hne =>
              injection h2 with ho hc'
              subst ho
              subst hc'
              refine ⟨?_, hctx⟩
              intro c hcc
              rw [Option.some_inj] at hcc
              subst hcc
              refine ⟨?_, ?_⟩
              · exact mem_of_contains (andL hcond)
              · exact callShapeB_weather (argStrOk_mk
                  (by simpa using hne) (ext_weather_norm hs))
          · exact branchMusic_spec hctx h2
      | none =>
          rw [hs] at h
          exact branchMusic_spec hctx h
  · exact branchMusic_spec hctx h

theorem branchTimer_spec {part low : Str} {avail : List String} {ctx : Ctx}
    {oc : Option ToolCall} {ctx' : Ctx} (hctx : ctxOkB ctx = true)
    (h : branchTimer part low avail ctx = (oc, ctx')) :
    (∀ c, oc = some c → c.name ∈ avail ∧ callShapeB c = true) ∧
    ctxOkB ctx' = true := by
  unfold branchTimer at h
  split at h
  · next hcond =>
      cases hs : _parse_minutes part with
      | some mins =>
          rw [hs] at h
          have h2 : (some (mkCall "set_timer" [("minutes", PyVal.n mins)]),
              ctx) = (oc, ctx') := h
          injection h2 with ho hc'
          subst ho
          subst hc'
          refine ⟨?_, hctx⟩
          intro c hcc
          rw [Option.some_inj] at hcc
          subst hcc
          refine ⟨?_, ?_⟩
          · exact mem_of_contains (andL hcond)
          · exact callShapeB_timer (argNatOk_n (minutes_nonneg hs))
      | none =>
          rw [hs] at h
          exact branchWeather_spec hctx h
  · exact branchWeather_spec hctx h

theorem branchAlarm_spec {part low : Str} {avail : List String} {ctx : Ctx}
    {oc : Option ToolCall} {ctx' : Ctx} (hctx : ctxOkB ctx = true)
    (h : branchAlarm part low avail ctx = (oc, ctx')) :
    (∀ c, oc = some c → c.name ∈ avail ∧ callShapeB c = true) ∧
    ctxOkB ctx' = true := by
  unfold branchAlarm at h
  split at h
  · next hcond =>
      cases hs : _parse_alarm_args part with
      | some p =>
          obtain ⟨hh, mm⟩ := p
          rw [hs] at h
          have h2 : (some (mkCall "set_alarm"
              [("hour", PyVal.n hh), ("minute", PyVal.n mm)]), ctx) =
              (oc, ctx') := h
          injection h2 with ho hc'
          subst ho
          subst hc'
          refine ⟨?_, hctx⟩
          intro c hcc
          rw [Option.some_inj] at hcc
          subst hcc
          refine ⟨?_, ?_⟩
          · exact mem_of_contains (andL hcond)
          · exact callShapeB_alarm (argNatOk_n (alarm_nonneg hs).1)
              (argNatOk_n (alarm_nonneg hs).2)
      | none =>
          rw [hs] at h
          exact branchTimer_spec hctx h
  · exact branchTimer_spec hctx h

theorem branchReminder_spec {part low : Str} {avail : List String}
    {ctx : Ctx} {oc : Option ToolCall} {ctx' : Ctx}
    (hctx : ctxOkB ctx = true)
    (h : branchReminder part low avail ctx = (oc, ctx')) :
    (∀ c, oc = some c → c.name ∈ avail ∧ callShapeB c = true) ∧
    ctxOkB ctx' = true := by
  unfold branchReminder at h
  split at h
  · next hcond =>
      cases ht : _extract_reminder_title part with
      | some title =>
          cases htt : _parse_reminder_time part with
          | some t =>
              rw [ht, htt] at h
              have h2 : (if !title.isEmpty && !t.isEmpty then
                  (some (mkCall "create_reminder"
                    [("title", PyVal.s (String.mk title)),
                     ("time", PyVal.s (String.mk t))]), ctx)
                  else branchAlarm part low avail ctx) = (oc, ctx') := h
              split at h2
              · next hne =>
                  injection h2 with ho hc'
                  subst ho
                  subst hc'
                  refine ⟨?_, hctx⟩
                  intro c hcc
                  rw [Option.some_inj] at hcc
                  subst hcc
                  refine ⟨?_, ?_⟩
                  · exact mem_of_contains (andL hcond)
                  · exact callShapeB_reminder
                      (argStrOk_mk (by simpa using andL hne)
                        (ext_title_norm ht))
                      (argStrOk_mk (by simpa using andR hne)
                        (reminder_time_norm htt))
              · exact branchAlarm_spec hctx h2
          | none =>
              rw [ht, htt] at h
              exact branchAlarm_spec hctx h
      | none =>
          rw [ht] at h
          exact branchAlarm_spec hctx h
  · exact branchAlarm_spec hctx h

theorem pyOr_eq_some {a b : Option Str} {x : Str} (h : pyOr a b = some x) :
    a = some x ∨ b = some x := by
  unfold pyOr at h
  split at h
  · exact Or.inl h
  · exact Or.inr h

theorem pairFst_norm {part r : Str}
    (h : (if !truthy (_extract_message_recipient part) ||
        !truthy (_extract_message_body part) then
      (pyOr (_extract_message_recipient part)
        (_extract_message_direct part).1,
       pyOr (_extract_message_body part)
        (_extract_message_direct part).2)
    else (_extract_message_recipient part,
      _extract_message_body part)).1 = some r) : wsNormB r = true := by
  split at h
  · have h2 : pyOr (_extract_message_recipient part)
        (_extract_message_direct part).1 = some r := h
    rcases pyOr_eq_some h2 with h3 | h3
    · exact ext_recipient_norm h3
    · exact direct_fst h3
  · have h2 : _extract_message_recipient part = some r := h
    exact ext_recipient_norm h2

theorem pairSnd_norm {part b : Str}
    (h : (if !truthy (_extract_message_recipient part) ||
        !truthy (_extract_message_body part) then
      (pyOr (_extract_message_recipient part)
        (_extract_message_direct part).1,
       pyOr (_extract_message_body part)
        (_extract_message_direct part).2)
    else (_extract_message_recipient part,
      _extract_message_body part)).2 = some b) : wsNormB b = true := by
  split at h
  · have h2 : pyOr (_extract_message_body part)
        (_extract_message_direct part).2 = some b := h
    rcases pyOr_eq_some h2 with h3 | h3
    · exact ext_body_norm h3
    · exact direct_snd h3
  · have h2 : _extract_message_body part = some b := h
    exact ext_body_norm h2

theorem branchSend_spec {part low : Str} {avail : List String} {ctx : Ctx}
    {oc : Option ToolCall} {ctx' : Ctx} (hctx : ctxOkB ctx = true)
    (h : branchSend part low avail ctx = (oc, ctx')) :
    (∀ c, oc = some c → c.name ∈ avail ∧ callShapeB c = true) ∧
    ctxOkB ctx' = true := by
  simp only [branchSend] at h
  split at h
  · rename_i hcond
    split at h
    · rename_i r heq1
      split at h
      · rename_i hrne
        split at h
        · rename_i b heq2
          split at h
          · rename_i hbne
            injection h with ho hc'
            subst ho
            subst hc'
            have hrn : wsNormB r = true := pairFst_norm heq1
            have hbn : wsNormB b = true := pairSnd_norm heq2
            have hRn : (if pronouns.contains (strLower r) &&
                  ctxTruthy ctx then ctx.getD [] else r).isEmpty = false ∧
                wsNormB (if pronouns.contains (strLower r) &&
                  ctxTruthy ctx then ctx.getD [] else r) = true := by
              by_cases hpron : (pronouns.contains (strLower r) &&
                  ctxTruthy ctx) = true
              · rw [if_pos hpron]
                have hct := andR hpron
                cases ctx with
                | none => simp [ctxTruthy] at hct
                | some s =>
                    have hc2 : (!s.isEmpty && wsNormB s) = true := hctx
                    exact ⟨by simpa using andL hc2, andR hc2⟩
              · rw [if_neg hpron]
                exact ⟨by simpa using hrne, hrn⟩
            constructor
            · intro c hcc
              rw [Option.some_inj] at hcc
              subst hcc
              refine ⟨mem_of_contains (andL hcond), ?_⟩
              exact callShapeB_send (argStrOk_mk hRn.1 hRn.2)
                (argStrOk_mk (by simpa using hbne) hbn)
            · have he : ctxOkB (some (if pronouns.contains (strLower r) &&
                  ctxTruthy ctx then ctx.getD [] else r)) =
                  (!(if pronouns.contains (strLower r) && ctxTruthy ctx then
                      ctx.getD [] else r).isEmpty &&
                   wsNormB (if pronouns.contains (strLower r) &&
                      ctxTruthy ctx then ctx.getD [] else r)) := rfl
              rw [he, hRn.1, hRn.2]
              rfl
          · exact branchReminder_spec hctx h
        · exact branchReminder_spec hctx h
      · exact branchReminder_spec hctx h
    · exact branchReminder_spec hctx h
  · exact branchReminder_spec hctx h

theorem branchSearch_spec {part low : Str} {avail : List String} {ctx : Ctx}
    {oc : Option ToolCall} {ctx' : Ctx} (hctx : ctxOkB ctx = true)
    (h : branchSearch part low avail ctx = (oc, ctx')) :
    (∀ c, oc = some c → c.name ∈ avail ∧ callShapeB c = true) ∧
    ctxOkB ctx' = true := by
  unfold branchSearch at h
  split at h
  · next hcond =>
      cases hs : _extract_search_query part with
      | some q =>
          rw [hs] at h
          have h2 : (if !q.isEmpty then
              (some (mkCall "search_contacts"
                [("query", PyVal.s (String.mk q))]), some q)
              else branchSend part low avail ctx) = (oc, ctx') := h
          split at h2
          · next hne =>
              injection h2 with ho hc'
              subst ho
              subst hc'
              constructor
              · intro c hcc
                rw [Option.some_inj] at hcc
                subst hcc
                exact ⟨mem_of_contains (andL hcond),
                  callShapeB_contacts (argStrOk_mk (by simpa using hne)
                    (ext_query_norm hs))⟩
              · simp [ctxOkB, (by simpa using hne : q.isEmpty = false),
                  ext_query_norm hs]
          · exact branchSend_spec hctx h2
      | none =>
          rw [hs] at h
          exact branchSend_spec hctx h
  · exact branchSend_spec hctx h

/-- Every call `_parse_part` emits names an available tool and has the
fixed argument shape; the context slot keeps its invariant. -/
theorem parsePart_spec {part : Str} {avail : List String} {ctx : Ctx}
    {oc : Option ToolCall} {ctx' : Ctx} (hctx : ctxOkB ctx = true)
    (h : _parse_part part avail ctx = (oc, ctx')) :
    (∀ c, oc = some c → c.name ∈ avail ∧ callShapeB c = true) ∧
    ctxOkB ctx' = true := by
  unfold _parse_part at h
  exact branchSearch_spec hctx h

/-! ## The deterministic candidate set: shape invariant and validation -/

theorem detRawGo_spec (avail : List String) (parts : List Str) :
    ∀ (acc : List ToolCall × Ctx),
      (∀ c ∈ acc.1, c.name ∈ avail ∧ callShapeB c = true) →
      ctxOkB acc.2 = true →
      ∀ c ∈ (parts.foldl (fun acc part =>
          match _parse_part part avail acc.2 with
          | (some c, ctx') => (acc.1 ++ [c], ctx')
          | (none, ctx') => (acc.1, ctx')) acc).1,
        c.name ∈ avail ∧ callShapeB c = true := by
  induction parts with
  | nil =>
      intro acc hacc _ c hc
      exact hacc c (by simpa using hc)
  | cons part rest ih =>
      intro acc hacc hctx
      simp only [List.foldl_cons]
      cases hp : _parse_part part avail acc.2 with
      | mk oc ctx' =>
          have hspec := parsePart_spec hctx hp
          cases oc with
          | some c0 =>
              refine ih (acc.1 ++ [c0], ctx') ?_ hspec.2
              intro d hd
              rcases List.mem_append.mp hd with hd1 | hd1
              · exact hacc d hd1
              · have hde : d = c0 := by simpa using hd1
                rw [hde]
                exact hspec.1 c0 rfl
          | none =>
              exact ih (acc.1, ctx') hacc hspec.2

/-- Every call of the deduplicated deterministic candidate set names an
available tool and has the per-tool argument shape. -/
theorem detCallsP_spec (parts : List Str) (avail : List String) :
    ∀ c ∈ detCallsP parts avail,
      c.name ∈ avail ∧ callShapeB c = true := by
  intro c hc
  have hc2 : c ∈ (detRaw parts avail).1 := dedupe_mem_of_mem_dedupe hc
  have hall := detRawGo_spec avail parts ([], none)
    (by intro d hd; cases hd) rfl
  exact hall c hc2

theorem callShape_name_seven {c : ToolCall} (h : callShapeB c = true) :
    c.name ∈ sevenNamesL := by
  by_cases h1 : c.name = "search_contacts"
  · rw [h1]; decide
  by_cases h2 : c.name = "send_message"
  · rw [h2]; decide
  by_cases h3 : c.name = "create_reminder"
  · rw [h3]; decide
  by_cases h4 : c.name = "set_alarm"
  · rw [h4]; decide
  by_cases h5 : c.name = "set_timer"
  · rw [h5]; decide
  by_cases h6 : c.name = "get_weather"
  · rw [h6]; decide
  by_cases h7 : c.name = "play_music"
  · rw [h7]; decide
  unfold callShapeB at h
  rw [if_neg h1, if_neg h2, if_neg h3, if_neg h4, if_neg h5, if_neg h6,
    if_neg h7] at h
  cases h

theorem shape1B_spec {args : List (String × PyVal)} {k : String}
    {ok : PyVal → Bool} (h : shape1B args k ok = true) :
    ∃ v, args = [(k, v)] ∧ ok v = true := by
  unfold shape1B at h
  split at h
  · rename_i k1 v1
    rw [Bool.and_eq_true] at h
    obtain ⟨hk, hv⟩ := h
    have hk2 : k1 = k := of_decide_eq_true hk
    subst hk2
    exact ⟨v1, rfl, hv⟩
  · cases h

theorem shape2B_spec {args : List (String × PyVal)} {ka kb : String}
    {oka okb : PyVal → Bool} (h : shape2B args ka kb oka okb = true) :
    ∃ v1 v2, args = [(ka, v1), (kb, v2)] ∧
      oka v1 = true ∧ okb v2 = true := by
  unfold shape2B at h
  split at h
  · rename_i k1 v1 k2 v2
    rw [Bool.and_eq_true, Bool.and_eq_true, Bool.and_eq_true] at h
    obtain ⟨⟨⟨hk1, hk2⟩, hv1⟩, hv2⟩ := h
    have ha : k1 = ka := of_decide_eq_true hk1
    have hb : k2 = kb := of_decide_eq_true hk2
    subst ha
    subst hb
    exact ⟨v1, v2, rfl, hv1, hv2⟩
  · cases h

theorem argStrOk_spec {v : PyVal} (h : argStrOk v = true) :
    ∃ str, v = PyVal.s str ∧ str.toList.isEmpty = false ∧
      wsNormB str.toList = true := by
  cases v with
  | s str =>
      have h2 : (!str.toList.isEmpty && wsNormB str.toList) = true := h
      exact ⟨str, rfl, by simpa using andL h2, andR h2⟩
  | n i => simp [argStrOk] at h
  | l xs => simp [argStrOk] at h

theorem argGet_single (k : String) (v : PyVal) :
    argGet [(k, v)] k = some v := by
  simp [argGet, List.find?]

theorem argGet_two_fst (k1 k2 : String) (v1 v2 : PyVal) :
    argGet [(k1, v1), (k2, v2)] k1 = some v1 := by
  simp [argGet, List.find?]

theorem argGet_two_snd {k1 k2 : String} (hne : k1 ≠ k2)
    (v1 v2 : PyVal) : argGet [(k1, v1), (k2, v2)] k2 = some v2 := by
  simp [argGet, List.find?, hne]

theorem valOkB_of_argStrOk {v : PyVal} (h : argStrOk v = true) :
    valOkB (some v) = true := by
  obtain ⟨str, rfl, hne, _⟩ := argStrOk_spec h
  have hs : str ≠ "" := by
    intro h0
    subst h0
    simp at hne
  simp [valOkB, hs]

theorem valOkB_of_argNatOk {v : PyVal} (h : argNatOk v = true) :
    valOkB (some v) = true := by
  cases v with
  | n i => rfl
  | s str => simp [argNatOk] at h
  | l xs => simp [argNatOk] at h

theorem callOk_of_shape {tools : List Tool} {c : ToolCall}
    (hreq : ∀ t ∈ tools, t.name ∈ sevenNamesL →
      t.required ⊆ emittedKeys t.name)
    (hmem : c.name ∈ tools.map (·.name))
    (hshape : callShapeB c = true) : callOkB tools c = true := by
  obtain ⟨t, ht, htn⟩ : ∃ t ∈ tools, t.name = c.name := by
    obtain ⟨t, ht, htn⟩ := List.mem_map.mp hmem
    exact ⟨t, ht, htn⟩
  have hsome : (toolMapFind tools c.name).isSome :=
    (toolMapFind_isSome_iff tools c.name).mpr ⟨t, ht, htn⟩
  obtain ⟨t0, ht0⟩ := Option.isSome_iff_exists.mp hsome
  have hmem0 := toolMapFind_mem ht0
  unfold callOkB
  rw [ht0, List.all_eq_true]
  intro k hk
  have hseven : c.name ∈ sevenNamesL := callShape_name_seven hshape
  have hkeys : t0.required ⊆ emittedKeys t0.name :=
    hreq t0 hmem0.1 (by rw [hmem0.2]; exact hseven)
  have hk2 : k ∈ emittedKeys c.name := by
    rw [← hmem0.2]
    exact hkeys hk
  unfold callShapeB at hshape
  by_cases h1 : c.name = "search_contacts"
  · rw [if_pos h1] at hshape
    obtain ⟨v, hargs, hv⟩ := shape1B_spec hshape
    rw [h1] at hk2
    simp [emittedKeys] at hk2
    subst hk2
    rw [hargs, argGet_single]
    exact valOkB_of_argStrOk hv
  rw [if_neg h1] at hshape
  by_cases h2 : c.name = "send_message"
  · rw [if_pos h2] at hshape
    obtain ⟨v1, v2, hargs, hv1, hv2⟩ := shape2B_spec hshape
    rw [h2] at hk2
    simp [emittedKeys] at hk2
    rw [hargs]
    rcases hk2 with rfl | rfl
    · rw [argGet_two_fst]
      exact valOkB_of_argStrOk hv1
    · rw [argGet_two_snd (by decide)]
      exact valOkB_of_argStrOk hv2
  rw [if_neg h2] at hshape
  by_cases h3 : c.name = "create_reminder"
  · rw [if_pos h3] at hshape
    obtain ⟨v1, v2, hargs, hv1, hv2⟩ := shape2B_spec hshape
    rw [h3] at hk2
    simp [emittedKeys] at hk2
    rw [hargs]
    rcases hk2 with rfl | rfl
    · rw [argGet_two_fst]
      exact valOkB_of_argStrOk hv1
    · rw [argGet_two_snd (by decide)]
      exact valOkB_of_argStrOk hv2
  rw [if_neg h3] at hshape
  by_cases h4 : c.name = "set_alarm"
  · rw [if_pos h4] at hshape
    obtain ⟨v1, v2, hargs, hv1, hv2⟩ := shape2B_spec hshape
    rw [h4] at hk2
    simp [emittedKeys] at hk2
    rw [hargs]
    rcases hk2 with rfl | rfl
    · rw [argGet_two_fst]
      exact valOkB_of_argNatOk hv1
    · rw [argGet_two_snd (by decide)]
      exact valOkB_of_argNatOk hv2
  rw [if_neg h4] at hshape
  by_cases h5 : c.name = "set_timer"
  · rw [if_pos h5] at hshape
    obtain ⟨v, hargs, hv⟩ := shape1B_spec hshape
    rw [h5] at hk2
    simp [emittedKeys] at hk2
    subst hk2
    rw [hargs, argGet_single]
    exact valOkB_of_argNatOk hv
  rw [if_neg h5] at hshape
  by_cases h6 : c.name = "get_weather"
  · rw [if_pos h6] at hshape
    obtain ⟨v, hargs, hv⟩ := shape1B_spec hshape
    rw [h6] at hk2
    simp [emittedKeys] at hk2
    subst hk2
    rw [hargs, argGet_single]
    exact valOkB_of_argStrOk hv
  rw [if_neg h6] at hshape
  by_cases h7 : c.name = "play_music"
  · rw [if_pos h7] at hshape
    obtain ⟨v, hargs, hv⟩ := shape1B_spec hshape
    rw [h7] at hk2
    simp [emittedKeys] at hk2
    subst hk2
    rw [hargs, argGet_single]
    exact valOkB_of_argStrOk hv
  rw [if_neg h7] at hshape
  cases hshape

theorem validate_of_shape {tools : List Tool} {calls : List ToolCall}
    (hreq : ∀ t ∈ tools, t.name ∈ sevenNamesL →
      t.required ⊆ emittedKeys t.name)
    (h : ∀ c ∈ calls, c.name ∈ tools.map (·.name) ∧ callShapeB c = true) :
    _validate calls tools = true := by
  unfold _validate
  rw [List.all_eq_true]
  intro c hc
  exact callOk_of_shape hreq (h c hc).1 (h c hc).2

/-- C10: every candidate call emitted by the deterministic per-span
extractor names a tool from the available registry set, and its arguments
are exactly the fixed key set of that tool, string values being non-blank
whitespace-normalized spans and numeric values non-negative integers;
consequently, for any registry whose required-parameter lists stay within
those emitted keys, the deterministic candidate set passes `_validate`. -/
theorem C10_det_invariant (parts : List Str) (tools : List Tool)
    (hreq : ∀ t ∈ tools, t.name ∈ sevenNamesL →
      t.required ⊆ emittedKeys t.name) :
    (∀ c ∈ detCallsP parts (tools.map (·.name)),
      c.name ∈ tools.map (·.name) ∧ callShapeB c = true) ∧
    _validate (detCallsP parts (tools.map (·.name))) tools = true := by
  have hshape := detCallsP_spec parts (tools.map (·.name))
  exact ⟨hshape, validate_of_shape hreq hshape⟩

/-- Witness for C10 on the demo registry and a concrete timer request. -/
theorem C10_det_invariant_witness :
    (∀ t ∈ sevenTools, t.name ∈ sevenNamesL →
      t.required ⊆ emittedKeys t.name) ∧
    ((∀ c ∈ detCallsP [String.toList "set a timer for 5 minutes"]
        (sevenTools.map (·.name)),
      c.name ∈ sevenTools.map (·.name) ∧ callShapeB c = true) ∧
    _validate (detCallsP [String.toList "set a timer for 5 minutes"]
      (sevenTools.map (·.name))) sevenTools = true) :=
  ⟨by decide, C10_det_invariant _ _ (by decide)⟩

end MAP
